import Mathlib

/-!
Verification of the reliability/concurrency core of `ftp-sync-watcher`:
shallow embeddings of `src/core/connectionPool.ts`, `src/core/operationQueue.ts`
and `src/core/fileWatcher.ts`, with theorems settling the spec's claims about
them.  Machine integers of the source (JS numbers holding millisecond
timestamps, counters) are modelled as `Nat`/`Int`; the explicit
`Math.max(0, _)` clamp of the source is kept as an explicit `max`.
-/

namespace FtpSync

/-! ## Error-message classification (`connectionPool.ts` lines 435-466,
`operationQueue.ts` lines 170-181)

The source classifies errors by lower-casing the error message and testing
for substrings.  `charLower`/`strLower` model `String.prototype.toLowerCase`
on the ASCII alphabet (every signature in the source is ASCII), and
`strHasSub` models `String.prototype.includes`. -/

/-- ASCII lower-casing of one character, as `toLowerCase` acts on the
signature strings of the source. -/
def charLower (c : Char) : Char :=
  if 'A' ≤ c ∧ c ≤ 'Z' then Char.ofNat (c.toNat + 32) else c

/-- Lower-case a string into its character list. -/
def strLower (s : String) : List Char :=
  s.data.map charLower

/-- `chIsPre needle hay`: `needle` is an initial segment of `hay`. -/
def chIsPre : List Char → List Char → Bool
  | [], _ => true
  | _ :: _, [] => false
  | a :: as, b :: bs => a == b && chIsPre as bs

/-- `chHasSub needle hay`: `needle` occurs contiguously inside `hay`
(model of `String.prototype.includes`). -/
def chHasSub (needle : List Char) : List Char → Bool
  | [] => needle.isEmpty
  | c :: rest => chIsPre needle (c :: rest) || chHasSub needle rest

/-- The fixed list of connection-class signatures,
`ConnectionPool.isConnectionError` (`connectionPool.ts` lines 436-454). -/
def connectionErrorSignatures : List String :=
  ["ECONNRESET", "ECONNREFUSED", "ETIMEDOUT", "ENOTFOUND", "ENETUNREACH",
   "EHOSTUNREACH", "EPIPE", "connection", "timeout", "socket", "closed",
   "ended", "disconnected", "530", "user closed", "transfer strategies",
   "client is closed"]

/-- `ConnectionPool.isConnectionError`: the lower-cased message contains some
lower-cased signature. -/
def isConnectionError (message : String) : Bool :=
  connectionErrorSignatures.any fun e => chHasSub (strLower e) (strLower message)

/-- `ConnectionPool.isRateLimitError` (`connectionPool.ts` lines 463-466):
the lower-cased message contains both `"530"` and `"maximum"`. -/
def isRateLimitError (message : String) : Bool :=
  chHasSub (strLower "530") (strLower message) &&
    chHasSub (strLower "maximum") (strLower message)

/-- The retryable signatures of `OperationQueue.isRetryableError`
(`operationQueue.ts` lines 171-177). -/
def retryableSignatures : List String :=
  ["timeout", "ECONNRESET", "ETIMEDOUT", "socket", "connection"]

/-- `OperationQueue.isRetryableError`. -/
def isRetryableError (message : String) : Bool :=
  retryableSignatures.any fun p => chHasSub (strLower p) (strLower message)

/-! ## The operation mutex of `ConnectionPool` (`connectionPool.ts`
lines 150, 165-184, 350-430)

`acquireOperationLock` chains each caller onto `this.operationMutex`:
caller `k` (0-indexed, in chaining order) builds `waitForTurn`, sets
`operationMutex := previousMutex.then(fun _ => waitForTurn)` and awaits
`previousMutex`; its `releaseLock` resolves `waitForTurn`, and
`executeWithRetry` calls it in a `finally`, i.e. exactly when the operation
settles.  With resolution instants as natural-number times:
a `.then` chain resolves at the `max` of its parts, the initial
`Promise.resolve()` is resolved at time `0`, and caller `k` resumes from
`await previousMutex` no earlier than both its own call instant `a k` and
the resolution of the chain of the `k` earlier callers.  `dur k` is the
time operation `k` spends from its start to its settling (all its attempts,
retries, reconnects and timeouts included). -/

/-- Resolution time of `this.operationMutex` after `k` callers have chained
onto it: the initial promise is resolved at `0`, and each caller's
`waitForTurn` is resolved at that caller's settle time. -/
def chainResolve (a dur : Nat → Nat) : Nat → Nat
  | 0 => 0
  | k + 1 =>
      max (chainResolve a dur k)
        (max (a k) (chainResolve a dur k) + dur k)

/-- Start of caller `k`'s execution window: it resumes from
`await previousMutex` once called (`a k`) and once the chain of the `k`
earlier callers has resolved. -/
def opStart (a dur : Nat → Nat) (k : Nat) : Nat :=
  max (a k) (chainResolve a dur k)

/-- Settle instant of caller `k`: start plus its duration; `releaseLock`
runs in the `finally` at this instant. -/
def opSettle (a dur : Nat → Nat) (k : Nat) : Nat :=
  opStart a dur k + dur k

theorem chainResolve_succ (a dur : Nat → Nat) (k : Nat) :
    chainResolve a dur (k + 1) = max (chainResolve a dur k) (opSettle a dur k) := rfl

theorem chainResolve_mono (a dur : Nat → Nat) {j k : Nat} (h : j ≤ k) :
    chainResolve a dur j ≤ chainResolve a dur k := by
  induction k with
  | zero => simp_all
  | succ n ih =>
      rcases Nat.lt_or_ge j (n + 1) with hl | hg
      · exact le_trans (ih (Nat.lt_succ_iff.mp hl)) (le_max_left _ _)
      · have : j = n + 1 := le_antisymm h hg
        simp [this]

theorem opSettle_le_chainResolve (a dur : Nat → Nat) {j k : Nat} (h : j < k) :
    opSettle a dur j ≤ chainResolve a dur k := by
  calc opSettle a dur j ≤ chainResolve a dur (j + 1) := by
        rw [chainResolve_succ]; exact le_max_right _ _
    _ ≤ chainResolve a dur k := chainResolve_mono a dur h

/-- C2.  Mutex exclusivity: for any two operations submitted to the same
`ConnectionPool`, their execution windows never overlap — whenever caller
`j` is chained before caller `k`, caller `j` settles (and hence its
`finally` releases the lock) no later than caller `k` starts its first
attempt, whatever the submission times and operation durations (retries,
reconnects and timeouts are inside `dur`). -/
theorem mutex_windows_disjoint (a dur : Nat → Nat) (j k : Nat) (h : j < k) :
    opSettle a dur j ≤ opStart a dur k :=
  le_trans (opSettle_le_chainResolve a dur h) (le_max_right _ _)

/-- Witness for C2 on a concrete schedule: the second operation is submitted
while the first (duration 40) is still running, yet its window starts only
at the first's settle instant. -/
theorem mutex_windows_disjoint_witness :
    0 < 1 ∧
      opSettle (fun k => 3 * k) (fun _ => 40) 0 ≤
        opStart (fun k => 3 * k) (fun _ => 40) 1 :=
  ⟨by decide, mutex_windows_disjoint (fun k => 3 * k) (fun _ => 40) 0 1 (by decide)⟩

/-! ## `ConnectionPool.executeWithRetry` retry loop (`connectionPool.ts`
lines 350-430)

The loop body `attempt = 1 .. maxRetries` is embedded with an oracle
`res : Nat → Except String α` giving, for each attempt number, the outcome
of that attempt's work (`operation(client)` raced against its timeout;
`getConnection` is taken to deliver a client, so that the work really runs
on every attempt, which is what the claim is about).  The pair returned is
(outcome of `executeWithRetry`, number of attempts that executed the
work). -/

def ewrGo (res : Nat → Except String α) (maxRetries : Nat) :
    Nat → Nat → Except String α × Nat
  | attempt, execs =>
    match res attempt with
    | .ok v => (.ok v, execs + 1)
    | .error e =>
        if isRateLimitError e then
          -- rate-limit branch: cooldown wait + connection reset, then loop
          if h : attempt < maxRetries then ewrGo res maxRetries (attempt + 1) (execs + 1)
          else (.error e, execs + 1)        -- loop exhausted: throw lastError
        else if h : isConnectionError e ∧ attempt < maxRetries then
          -- connection-class error: reconnect, then loop
          ewrGo res maxRetries (attempt + 1) (execs + 1)
        else if isConnectionError e then
          (.error e, execs + 1)             -- final attempt: throw lastError
        else
          (.error e, execs + 1)             -- non-connection error: throw now
  termination_by attempt _ => maxRetries + 1 - attempt

/-- `executeWithRetry` with its fixed `maxRetries = 3`, starting at
attempt 1 with no work executed yet. -/
def executeWithRetryCount (res : Nat → Except String α) : Except String α × Nat :=
  ewrGo res 3 1 0

theorem ewrGo_err_step (res : Nat → Except String α) (maxRetries attempt execs : Nat)
    {e : String} (hea : res attempt = .error e) (hca : isConnectionError e = true)
    (hlt : attempt < maxRetries) :
    ewrGo res maxRetries attempt execs = ewrGo res maxRetries (attempt + 1) (execs + 1) := by
  conv_lhs => unfold ewrGo
  rw [hea]
  by_cases hrl : isRateLimitError e <;> simp [hrl, hca, hlt]

theorem ewrGo_err_exhaust (res : Nat → Except String α) (maxRetries attempt execs : Nat)
    {e : String} (hea : res attempt = .error e) (hge : maxRetries ≤ attempt) :
    ewrGo res maxRetries attempt execs = (.error e, execs + 1) := by
  conv_lhs => unfold ewrGo
  rw [hea]
  have hnl : ¬ attempt < maxRetries := by omega
  by_cases hrl : isRateLimitError e <;>
    by_cases hc : isConnectionError e <;> simp [hrl, hc, hnl]

theorem ewrGo_conn_all (res : Nat → Except String Unit) (maxRetries : Nat)
    (h : ∀ k, 1 ≤ k → k ≤ maxRetries → ∃ e, res k = .error e ∧ isConnectionError e = true) :
    ∀ attempt execs, 1 ≤ attempt → attempt ≤ maxRetries →
      (∀ e, res maxRetries = .error e →
        ewrGo res maxRetries attempt execs =
          (.error e, execs + (maxRetries + 1 - attempt))) := by
  have key : ∀ n attempt execs, maxRetries - attempt = n → 1 ≤ attempt →
      attempt ≤ maxRetries → ∀ e, res maxRetries = .error e →
      ewrGo res maxRetries attempt execs =
        (.error e, execs + (maxRetries + 1 - attempt)) := by
    intro n
    induction n with
    | zero =>
        intro attempt execs hn h1 h2 e hre
        have heq : attempt = maxRetries := by omega
        obtain ⟨ea, hea, _⟩ := h attempt h1 h2
        have hee : ea = e := by
          rw [heq, hre] at hea; injection hea with h'; exact h'.symm
        rw [ewrGo_err_exhaust res maxRetries attempt execs hea (by omega)]
        rw [hee, heq]
        have harith : execs + 1 = execs + (maxRetries + 1 - maxRetries) := by omega
        rw [harith]
    | succ n ih =>
        intro attempt execs hn h1 h2 e hre
        have hlt : attempt < maxRetries := by omega
        obtain ⟨ea, hea, hca⟩ := h attempt h1 h2
        rw [ewrGo_err_step res maxRetries attempt execs hea hca hlt]
        rw [ih (attempt + 1) (execs + 1) (by omega) (by omega) (by omega) e hre]
        have harith : execs + 1 + (maxRetries + 1 - (attempt + 1)) =
            execs + (maxRetries + 1 - attempt) := by omega
        rw [harith]
  intro attempt execs h1 h2 e hre
  exact key (maxRetries - attempt) attempt execs rfl h1 h2 e hre

/-- C3.  Retry ceiling: (i) an operation whose work throws a
connection-class error on every attempt is executed exactly 3 times and
`executeWithRetry` then rejects with the last underlying error — never a
4th attempt; (ii) an operation whose work throws a non-connection-class
error on its first attempt rejects immediately with that error after that
single attempt. -/
theorem executeWithRetry_retry_ceiling (res : Nat → Except String Unit) :
    ((∀ k, 1 ≤ k → k ≤ 3 → ∃ e, res k = .error e ∧ isConnectionError e = true) →
      ∀ e, res 3 = .error e → executeWithRetryCount res = (.error e, 3)) ∧
    (∀ e, res 1 = .error e → isConnectionError e = false →
      executeWithRetryCount res = (.error e, 1)) := by
  constructor
  · intro h e hre
    have := ewrGo_conn_all res 3 h 1 0 (by omega) (by omega) e hre
    simpa [executeWithRetryCount] using this
  · intro e hre hnc
    have hnrl : isRateLimitError e = false := by
      -- a rate-limit message contains "530", hence is connection-class
      by_contra hx
      have hrl : isRateLimitError e = true := by
        cases hh : isRateLimitError e
        · exact absurd hh hx
        · rfl
      have h530 : chHasSub (strLower "530") (strLower e) = true := by
        have := hrl
        unfold isRateLimitError at this
        exact (Bool.and_eq_true _ _ |>.mp this).1
      have : isConnectionError e = true := by
        unfold isConnectionError connectionErrorSignatures
        simp only [List.any_eq_true]
        exact ⟨"530", by simp, h530⟩
      rw [hnc] at this
      exact Bool.false_ne_true this
    unfold executeWithRetryCount
    conv_lhs => unfold ewrGo
    rw [hre]
    simp [hnrl, hnc]

/-- Witness for C3 at concrete oracles: `"ECONNRESET"` (connection-class)
on every attempt gives exactly 3 executions; `"permission denied"`
(non-connection) gives exactly 1. -/
theorem executeWithRetry_retry_ceiling_witness :
    executeWithRetryCount (fun _ => (.error "ECONNRESET" : Except String Unit)) =
        (.error "ECONNRESET", 3) ∧
      executeWithRetryCount (fun _ => (.error "permission denied" : Except String Unit)) =
        (.error "permission denied", 1) :=
  ⟨(executeWithRetry_retry_ceiling (fun _ => .error "ECONNRESET")).1
      (fun k _ _ => ⟨"ECONNRESET", rfl, by decide⟩) "ECONNRESET" rfl,
    (executeWithRetry_retry_ceiling (fun _ => .error "permission denied")).2
      "permission denied" rfl (by decide)⟩

/-! ## `GlobalConnectionManager` (`connectionPool.ts` lines 13-125)

The admission controller is single-threaded JavaScript interacting with
timers, so it is embedded as a deterministic discrete-event interpreter:
the externally issued calls (`acquireSlot`, `releaseSlot`,
`setRateLimited`) are timestamped commands, and the timers the source
creates (`setTimeout(waitTime)` for the rate-limit sleep inside
`acquireSlot`, `setTimeout(..., 120000)` for a queued waiter's timeout)
become internally scheduled events.  Events are processed in order of
(time, creation sequence number), which is how Node's timer queue orders
due timers; `clearTimeout` removes the scheduled event.  Each `acquireSlot`
call is identified by the sequence number of its command event (`key`), and
`start` records the instant the call was made.  The grant/reject results of
`acquireSlot` calls are collected in `log`. -/

/-- The three public mutating calls of `GlobalConnectionManager`. -/
inductive GCmd
  | acquire
  | release
  | setRateLimited
  deriving DecidableEq

/-- What a scheduled event does: an external command, the wake-up of an
`acquireSlot` call that slept out the rate-limit cooldown (lines 55-59),
or the 120s timeout timer of a queued waiter (lines 70-76). -/
inductive GAct
  | ext : GCmd → GAct
  | sleeperWake (key start : Nat) : GAct
  | waiterTimeout (key : Nat) : GAct
  deriving DecidableEq

/-- A scheduled event: its due time, its creation sequence number
(Node fires same-due-time timers in creation order), and its action. -/
structure GEv where
  time : Nat
  seq : Nat
  act : GAct
  deriving DecidableEq

/-- One entry of `connectionQueue` (line 17): the resolve/reject closure
pair is identified by `key`; `start` is the instant of the `acquireSlot`
call it belongs to. -/
structure GWaiter where
  key : Nat
  start : Nat
  deriving DecidableEq

/-- How an `acquireSlot` call ended: granted on the spot (line 61-65),
granted from the wait queue by `releaseSlot` (lines 100-106), or rejected
with `Timeout waiting for connection slot` (line 75). -/
inductive GOut
  | grantedDirect
  | grantedFromQueue
  | slotTimeout
  deriving DecidableEq

/-- Outcome record of one `acquireSlot` call: which call (`key`), when it
was made (`start`), when and how it settled. -/
structure GEntry where
  key : Nat
  start : Nat
  time : Nat
  out : GOut
  deriving DecidableEq

/-- Interpreter state: `active` is `activeConnections` (an `Int` so that
the source's explicit `Math.max(0, ...)` clamp is visible),
`rateLimitedUntil` as in line 18, `queue` is `connectionQueue`, `pending`
the not-yet-fired scheduled events, `nextSeq` the next fresh sequence
number, `log` the settled `acquireSlot` calls. -/
structure GState where
  now : Nat
  active : Int
  rateLimitedUntil : Nat
  pending : List GEv
  queue : List GWaiter
  nextSeq : Nat
  log : List GEntry
  deriving DecidableEq

/-- Event ranking: due time, then creation order. -/
def evRank (e : GEv) : Nat × Nat := (e.time, e.seq)

/-- Lexicographic comparison of ranks. -/
def rankLeb (a b : Nat × Nat) : Bool :=
  decide (a.1 < b.1) || (decide (a.1 = b.1) && decide (a.2 ≤ b.2))

/-- Extract the event with the least rank (the next one Node would run). -/
def extractMinBy (rank : α → Nat × Nat) : List α → Option (α × List α)
  | [] => none
  | x :: xs =>
    match extractMinBy rank xs with
    | none => some (x, [])
    | some (m, rest) =>
        if rankLeb (rank x) (rank m) then some (x, xs) else some (m, x :: rest)

/-- `ev` is the pending 120s-timeout timer of waiter `key`
(what its `clearTimeout` cancels). -/
def isTimeoutFor (key : Nat) (ev : GEv) : Bool :=
  match ev.act with
  | GAct.waiterTimeout k => k == key
  | _ => false

/-- Lines 61-90 of `acquireSlot`, after any rate-limit sleep: grab a free
slot if `activeConnections < maxGlobalConnections` (2), else append to
`connectionQueue` and start the 120 000 ms timeout timer. -/
def grantOrQueue (st : GState) (key start : Nat) : GState :=
  if st.active < 2 then
    { st with active := st.active + 1,
              log := st.log ++ [⟨key, start, st.now, GOut.grantedDirect⟩] }
  else
    { st with queue := st.queue ++ [⟨key, start⟩],
              pending := st.pending ++ [⟨st.now + 120000, st.nextSeq, GAct.waiterTimeout key⟩],
              nextSeq := st.nextSeq + 1 }

/-- `acquireSlot()` (lines 53-91): if rate-limited, sleep until
`rateLimitedUntil` (the remaining cooldown computed now) and run the rest
on wake-up; otherwise proceed immediately. -/
def doAcquire (st : GState) (key : Nat) : GState :=
  if st.now < st.rateLimitedUntil then
    { st with pending := st.pending ++ [⟨st.rateLimitedUntil, st.nextSeq, GAct.sleeperWake key st.now⟩],
              nextSeq := st.nextSeq + 1 }
  else grantOrQueue st key st.now

/-- `releaseSlot()` (lines 96-107): clamp the counter at zero, then if a
waiter is queued and a slot is free, grant the queue head (its `resolve`
clears its timeout timer and re-increments the counter). -/
def doRelease (st : GState) : GState :=
  match st.queue with
  | [] => { st with active := max 0 (st.active - 1) }
  | w :: rest =>
      if max 0 (st.active - 1) < 2 then
        { st with active := max 0 (st.active - 1) + 1,
                  queue := rest,
                  pending := st.pending.filter (fun ev => !(isTimeoutFor w.key ev)),
                  log := st.log ++ [⟨w.key, w.start, st.now, GOut.grantedFromQueue⟩] }
      else { st with active := max 0 (st.active - 1) }

/-- The 120s timer of a waiter fires (lines 70-76): if the waiter is still
queued, remove it and reject with the slot-timeout error; otherwise
(already granted, timer cleared) nothing. -/
def doTimeout (st : GState) (key : Nat) : GState :=
  match st.queue.find? (fun w => w.key == key) with
  | none => st
  | some w =>
      { st with queue := st.queue.eraseP (fun w2 => w2.key == key),
                log := st.log ++ [⟨w.key, w.start, st.now, GOut.slotTimeout⟩] }

/-- `setRateLimited()` (lines 31-34): cooldown of 60 000 ms from now. -/
def doSetRateLimited (st : GState) : GState :=
  { st with rateLimitedUntil := st.now + 60000 }

/-- Run the next due event. -/
def gcmStep (st : GState) : GState :=
  match extractMinBy evRank st.pending with
  | none => st
  | some (e, rest) =>
    match e.act with
    | GAct.ext GCmd.acquire => doAcquire { st with pending := rest, now := e.time } e.seq
    | GAct.ext GCmd.release => doRelease { st with pending := rest, now := e.time }
    | GAct.ext GCmd.setRateLimited => doSetRateLimited { st with pending := rest, now := e.time }
    | GAct.sleeperWake key start => grantOrQueue { st with pending := rest, now := e.time } key start
    | GAct.waiterTimeout key => doTimeout { st with pending := rest, now := e.time } key

/-- Run up to `fuel` events. -/
def gcmRun : Nat → GState → GState
  | 0, st => st
  | fuel + 1, st => if st.pending.isEmpty then st else gcmRun fuel (gcmStep st)

/-- Tag external commands with creation numbers `i, i+1, ...` in order. -/
def tagCmds : Nat → List (Nat × GCmd) → List GEv
  | _, [] => []
  | i, (t, c) :: rest => ⟨t, i, GAct.ext c⟩ :: tagCmds (i + 1) rest

/-- Initial state for a list of timestamped external commands: counter 0,
no cooldown, empty queue, the commands scheduled with creation numbers
`0, 1, ...` in list order. -/
def gcmInit (cmds : List (Nat × GCmd)) : GState :=
  { now := 0, active := 0, rateLimitedUntil := 0,
    pending := tagCmds 0 cmds,
    queue := [], nextSeq := cmds.length, log := [] }

theorem rankLeb_refl (a : Nat × Nat) : rankLeb a a = true := by
  simp [rankLeb]

theorem rankLeb_trans {a b c : Nat × Nat} (h1 : rankLeb a b = true)
    (h2 : rankLeb b c = true) : rankLeb a c = true := by
  simp [rankLeb] at h1 h2 ⊢
  omega

theorem rankLeb_of_not {a b : Nat × Nat} (h : ¬ rankLeb a b = true) :
    rankLeb b a = true := by
  simp [rankLeb] at h ⊢
  omega

theorem extractMinBy_cons (r : α → Nat × Nat) (x : α) (xs : List α) :
    extractMinBy r (x :: xs) =
      match extractMinBy r xs with
      | none => some (x, [])
      | some (m, rest) =>
          if rankLeb (r x) (r m) then some (x, xs) else some (m, x :: rest) := rfl

theorem extractMinBy_none {r : α → Nat × Nat} :
    ∀ {l : List α}, extractMinBy r l = none → l = [] := by
  intro l h
  cases l with
  | nil => rfl
  | cons x xs =>
      rw [extractMinBy_cons] at h
      split at h
      · simp at h
      · split at h <;> simp at h

theorem extractMinBy_perm {r : α → Nat × Nat} :
    ∀ {l : List α} {m : α} {rest : List α},
      extractMinBy r l = some (m, rest) → l.Perm (m :: rest) := by
  intro l
  induction l with
  | nil => intro m rest h; simp [extractMinBy] at h
  | cons x xs ih =>
      intro m rest h
      rw [extractMinBy_cons] at h
      split at h
      · rename_i hnone
        have hxs := extractMinBy_none hnone
        subst hxs
        injection h with h'
        injection h' with h1 h2
        subst h1; subst h2
        exact List.Perm.refl _
      · rename_i m' rest' hsome
        split at h
        · injection h with h'
          injection h' with h1 h2
          subst h1; subst h2
          exact List.Perm.refl _
        · injection h with h'
          injection h' with h1 h2
          subst h1; subst h2
          exact List.Perm.trans ((ih hsome).cons x) (List.Perm.swap _ x rest')

theorem extractMinBy_min {r : α → Nat × Nat} :
    ∀ {l : List α} {m : α} {rest : List α},
      extractMinBy r l = some (m, rest) →
      ∀ y ∈ rest, rankLeb (r m) (r y) = true := by
  intro l
  induction l with
  | nil => intro m rest h; simp [extractMinBy] at h
  | cons x xs ih =>
      intro m rest h
      rw [extractMinBy_cons] at h
      split at h
      · injection h with h'
        injection h' with h1 h2
        subst h1; subst h2
        intro y hy
        simp at hy
      · rename_i m' rest' hsome
        split at h
        · rename_i hle
          injection h with h'
          injection h' with h1 h2
          subst h1; subst h2
          intro y hy
          have hyx : y ∈ m' :: rest' := ((extractMinBy_perm hsome).mem_iff).mp hy
          rcases List.mem_cons.mp hyx with h' | h'
          · subst h'; exact hle
          · exact rankLeb_trans hle (ih hsome y h')
        · rename_i hnle
          injection h with h'
          injection h' with h1 h2
          subst h1; subst h2
          intro y hy
          rcases List.mem_cons.mp hy with h' | h'
          · subst h'; exact rankLeb_of_not hnle
          · exact ih hsome y h'

theorem extractMinBy_mem {r : α → Nat × Nat} {l : List α} {m : α} {rest : List α}
    (h : extractMinBy r l = some (m, rest)) : m ∈ l :=
  ((extractMinBy_perm h).symm.mem_iff).mp (List.mem_cons_self m rest)

/-- The slot-counter bound of C1. -/
def SlotInv (st : GState) : Prop := 0 ≤ st.active ∧ st.active ≤ 2

theorem slotInv_grantOrQueue {st : GState} (h : SlotInv st) (key start : Nat) :
    SlotInv (grantOrQueue st key start) := by
  obtain ⟨h0, h2⟩ := h
  unfold grantOrQueue SlotInv
  split
  · rename_i hlt
    constructor <;> simp <;> omega
  · exact ⟨h0, h2⟩

theorem slotInv_doAcquire {st : GState} (h : SlotInv st) (key : Nat) :
    SlotInv (doAcquire st key) := by
  unfold doAcquire
  split
  · exact h
  · exact slotInv_grantOrQueue h _ _

theorem slotInv_doRelease {st : GState} (h : SlotInv st) : SlotInv (doRelease st) := by
  obtain ⟨h0, h2⟩ := h
  unfold doRelease SlotInv
  split
  · constructor <;> simp <;> omega
  · split
    · rename_i hlt
      constructor <;> simp <;> omega
    · constructor <;> simp <;> omega

theorem slotInv_doTimeout {st : GState} (h : SlotInv st) (key : Nat) :
    SlotInv (doTimeout st key) := by
  unfold doTimeout
  split
  · exact h
  · exact h

theorem slotInv_gcmStep {st : GState} (h : SlotInv st) : SlotInv (gcmStep st) := by
  unfold gcmStep
  split
  · exact h
  · split
    · apply slotInv_doAcquire; exact h
    · apply slotInv_doRelease; exact h
    · exact h
    · apply slotInv_grantOrQueue; exact h
    · apply slotInv_doTimeout; exact h

/-- C1.  Slot bound: along every sequence of timestamped
`acquireSlot` / `releaseSlot` / `setRateLimited` calls (any number of
concurrent targets issue exactly such a sequence), at every point of the
run the count of simultaneously-held slots satisfies
`0 ≤ activeConnections ≤ 2`: `acquireSlot` never pushes it above the fixed
maximum 2, and `releaseSlot`'s `Math.max(0, ...)` clamp never lets it drop
below zero even when nothing is held. -/
theorem slot_bound (cmds : List (Nat × GCmd)) (fuel : Nat) :
    0 ≤ (gcmRun fuel (gcmInit cmds)).active ∧ (gcmRun fuel (gcmInit cmds)).active ≤ 2 := by
  have init : SlotInv (gcmInit cmds) := ⟨le_refl 0, by norm_num [gcmInit]⟩
  have run : ∀ n st, SlotInv st → SlotInv (gcmRun n st) := by
    intro n
    induction n with
    | zero => intro st h; exact h
    | succ m ih =>
        intro st h
        unfold gcmRun
        split
        · exact h
        · exact ih _ (slotInv_gcmStep h)
  exact run fuel _ init

/-! ### Bookkeeping for the `GlobalConnectionManager` invariants

Every `acquireSlot` call has a unique key; at any instant the key is owned
by exactly one place — a pending `acquire` command event, a pending
`sleeperWake` event, a queue entry, or a log entry.  `keyList` collects all
of them; a step of the interpreter moves one key between places, so the
list stays duplicate-free. -/

/-- The call key a pending event owns, if any. -/
def evCallKeys (e : GEv) : List Nat :=
  match e.act with
  | GAct.ext GCmd.acquire => [e.seq]
  | GAct.sleeperWake k _ => [k]
  | _ => []

/-- All `acquireSlot` call keys in flight or settled. -/
def keyList (st : GState) : List Nat :=
  st.pending.flatMap evCallKeys ++ st.queue.map (fun w => w.key) ++
    st.log.map (fun en => en.key)

theorem tagCmds_mem {cmds : List (Nat × GCmd)} :
    ∀ {i : Nat} {e : GEv}, e ∈ tagCmds i cmds →
      i ≤ e.seq ∧ e.seq < i + cmds.length ∧
        ∃ c, e.act = GAct.ext c ∧ (e.time, c) ∈ cmds := by
  induction cmds with
  | nil => intro i e h; simp [tagCmds] at h
  | cons hd tl ih =>
      intro i e h
      obtain ⟨t, c⟩ := hd
      rw [tagCmds] at h
      rcases List.mem_cons.mp h with h' | h'
      · subst h'
        exact ⟨le_refl _, by simp, c, rfl, by simp⟩
      · obtain ⟨h1, h2, c', hc1, hc2⟩ := ih h'
        exact ⟨by omega, by simp; omega, c', hc1, by simp [hc2]⟩

theorem tagCmds_seqs_nodup (cmds : List (Nat × GCmd)) :
    ∀ i : Nat, ((tagCmds i cmds).map (fun e => e.seq)).Nodup := by
  induction cmds with
  | nil => intro i; simp [tagCmds]
  | cons hd tl ih =>
      intro i
      obtain ⟨t, c⟩ := hd
      rw [tagCmds]
      simp only [List.map_cons, List.nodup_cons]
      constructor
      · intro hmem
        obtain ⟨e, he, hseq⟩ := List.mem_map.mp hmem
        have h1 := (tagCmds_mem he).1
        have h2 : e.seq = i := hseq
        omega
      · exact ih (i + 1)

theorem tagCmds_keys_sub {cmds : List (Nat × GCmd)} :
    ∀ {i : Nat} {k : Nat}, k ∈ (tagCmds i cmds).flatMap evCallKeys →
      ∃ e ∈ tagCmds i cmds, k = e.seq := by
  intro i k h
  obtain ⟨e, he, hk⟩ := List.mem_flatMap.mp h
  refine ⟨e, he, ?_⟩
  obtain ⟨_, _, c, hc, _⟩ := tagCmds_mem he
  cases c
  · simp [evCallKeys, hc] at hk
    omega
  · simp [evCallKeys, hc] at hk
  · simp [evCallKeys, hc] at hk

theorem tagCmds_keys_nodup (cmds : List (Nat × GCmd)) (i : Nat) :
    ((tagCmds i cmds).flatMap evCallKeys).Nodup := by
  induction cmds generalizing i with
  | nil => simp [tagCmds]
  | cons hd tl ih =>
      obtain ⟨t, c⟩ := hd
      rw [tagCmds]
      rw [List.flatMap_cons]
      apply List.Nodup.append
      · cases c <;> simp [evCallKeys]
      · exact ih (i + 1)
      · intro k hk1 hk2
        obtain ⟨e, he, hke⟩ := tagCmds_keys_sub hk2
        have hseq := (tagCmds_mem he).1
        cases c <;> simp [evCallKeys] at hk1 <;> omega

/-- If every element removed by the filter owns no key, filtering does not
change the owned keys. -/
theorem filter_bind_keys (p : GEv → Bool) :
    ∀ l : List GEv, (∀ x ∈ l, p x = false → evCallKeys x = []) →
      (l.filter p).flatMap evCallKeys = l.flatMap evCallKeys := by
  intro l
  induction l with
  | nil => intro _; simp
  | cons x xs ih =>
      intro h
      rw [List.flatMap_cons]
      cases hp : p x with
      | true =>
          rw [List.filter_cons_of_pos hp, List.flatMap_cons,
            ih (fun y hy hpy => h y (List.mem_cons_of_mem _ hy) hpy)]
      | false =>
          rw [List.filter_cons_of_neg (by simp [hp]),
            ih (fun y hy hpy => h y (List.mem_cons_of_mem _ hy) hpy),
            h x (List.mem_cons_self _ _) hp]
          simp

/-- `find?` finding `w` permutes the list to `w` on top of `eraseP`
(model of `findIndex` + `splice(index, 1)`). -/
theorem find?_eraseP_perm {p : α → Bool} :
    ∀ {l : List α} {w : α}, l.find? p = some w →
      l.Perm (w :: l.eraseP p) := by
  intro l
  induction l with
  | nil => intro w h; simp at h
  | cons x xs ih =>
      intro w h
      cases hp : p x with
      | true =>
          rw [List.find?_cons_of_pos _ hp] at h
          injection h with h'
          subst h'
          rw [List.eraseP_cons_of_pos hp]
      | false =>
          rw [List.find?_cons_of_neg _ (by simp [hp])] at h
          rw [List.eraseP_cons_of_neg (by simp [hp])]
          exact List.Perm.trans ((ih h).cons x) (List.Perm.swap w x _)

theorem eraseP_subset {p : α → Bool} {l : List α} : ∀ x ∈ l.eraseP p, x ∈ l :=
  fun _ hx => (List.eraseP_sublist l).subset hx

theorem rankLeb_time_le {a b : Nat × Nat} (h : rankLeb a b = true) : a.1 ≤ b.1 := by
  simp [rankLeb] at h
  omega

/-- Disjointness inside a three-part `Nodup` list. -/
theorem nodup3_disjoint12 {a b c : List Nat} (h : (a ++ b ++ c).Nodup) :
    ∀ x, x ∈ a → x ∈ b → False := by
  intro x hxa hxb
  have h1 : (a ++ b).Nodup := (List.nodup_append.mp h).1
  exact (List.nodup_append.mp h1).2.2 hxa hxb

theorem nodup3_disjoint13 {a b c : List Nat} (h : (a ++ b ++ c).Nodup) :
    ∀ x, x ∈ a → x ∈ c → False := by
  intro x hxa hxc
  exact (List.nodup_append.mp h).2.2 (List.mem_append_left _ hxa) hxc

theorem nodup3_disjoint23 {a b c : List Nat} (h : (a ++ b ++ c).Nodup) :
    ∀ x, x ∈ b → x ∈ c → False := by
  intro x hxb hxc
  exact (List.nodup_append.mp h).2.2 (List.mem_append_right _ hxb) hxc

theorem nodup3_mid {a b c : List Nat} (h : (a ++ b ++ c).Nodup) : b.Nodup :=
  ((List.nodup_append.mp (List.nodup_append.mp h).1).2.1)

/-- Invariant of the admission-controller interpreter (independent of the
command trace).  `nowLe` says no pending event is overdue; `rluLe` that the
cooldown never reaches more than 60 s into the future; `slpB` bounds a
sleeping `acquireSlot` call: it went to sleep at `s` (not later than now)
and wakes strictly later but within 60 s; `tmoB` says a waiter's pending
timeout timer is due at most 180 s after that waiter's call started;
`wtT`/`tTw`/`tmoU` are the bijection between queued waiters and their
timeout timers; `keyNd` that every call key lives in exactly one place;
`logB` the settled-call bound of C6; `wStartLe` that queued calls started
in the past. -/
structure GInvB (st : GState) : Prop where
  nowLe : ∀ e ∈ st.pending, st.now ≤ e.time
  rluLe : st.rateLimitedUntil ≤ st.now + 60000
  seqLt : ∀ e ∈ st.pending, e.seq < st.nextSeq
  seqNd : (st.pending.map (fun e => e.seq)).Nodup
  slpB : ∀ e ∈ st.pending, ∀ k s, e.act = GAct.sleeperWake k s →
      s ≤ st.now ∧ s < e.time ∧ e.time ≤ s + 60000 ∧ e.time ≤ st.rateLimitedUntil
  tmoB : ∀ e ∈ st.pending, ∀ k, e.act = GAct.waiterTimeout k →
      ∀ w ∈ st.queue, w.key = k → e.time ≤ w.start + 180000
  wtT : ∀ w ∈ st.queue, ∃ e ∈ st.pending, e.act = GAct.waiterTimeout w.key
  tTw : ∀ e ∈ st.pending, ∀ k, e.act = GAct.waiterTimeout k → ∃ w ∈ st.queue, w.key = k
  tmoU : ∀ e1 ∈ st.pending, ∀ e2 ∈ st.pending, ∀ k,
      e1.act = GAct.waiterTimeout k → e2.act = GAct.waiterTimeout k → e1.seq = e2.seq
  keyNd : (keyList st).Nodup
  logB : ∀ en ∈ st.log, en.time ≤ en.start + 180000
  wStartLe : ∀ w ∈ st.queue, w.start ≤ st.now

theorem ginvB_init (cmds : List (Nat × GCmd)) : GInvB (gcmInit cmds) := by
  have hext : ∀ e ∈ tagCmds 0 cmds, ∃ c, e.act = GAct.ext c :=
    fun e he => ⟨(tagCmds_mem he).2.2.choose, (tagCmds_mem he).2.2.choose_spec.1⟩
  refine ⟨?_, ?_, ?_, ?_, ?_, ?_, ?_, ?_, ?_, ?_, ?_, ?_⟩
  · intro e _; exact Nat.zero_le _
  · simp [gcmInit]
  · intro e he
    have h2 := (tagCmds_mem he).2.1
    simpa [gcmInit] using h2
  · exact tagCmds_seqs_nodup cmds 0
  · intro e he k s hact
    obtain ⟨c, hc⟩ := hext e he
    rw [hc] at hact
    cases hact
  · intro e he k hact
    obtain ⟨c, hc⟩ := hext e he
    rw [hc] at hact
    cases hact
  · intro w hw; simp [gcmInit] at hw
  · intro e he k hact
    obtain ⟨c, hc⟩ := hext e he
    rw [hc] at hact
    cases hact
  · intro e1 he1 e2 he2 k hact1 hact2
    obtain ⟨c, hc⟩ := hext e1 he1
    rw [hc] at hact1
    cases hact1
  · simpa [keyList, gcmInit] using tagCmds_keys_nodup cmds 0
  · intro en hen; simp [gcmInit] at hen
  · intro w hw; simp [gcmInit] at hw

theorem keyNd_pop {st : GState} {e : GEv} {rest : List GEv}
    (keyNd : (keyList st).Nodup) (hperm : st.pending.Perm (e :: rest)) :
    (evCallKeys e ++ (rest.flatMap evCallKeys ++
      (st.queue.map (fun w => w.key) ++ st.log.map (fun en => en.key)))).Nodup := by
  have h2 := hperm.flatMap_right evCallKeys
  rw [List.flatMap_cons] at h2
  have h3 : (keyList st).Perm
      (((evCallKeys e ++ rest.flatMap evCallKeys) ++ st.queue.map (fun w => w.key)) ++
        st.log.map (fun en => en.key)) :=
    (h2.append_right _).append_right _
  have h4 := (h3.nodup_iff).mp keyNd
  simpa [List.append_assoc] using h4

/-- Facts available when the interpreter pops event `e`. -/
theorem pop_facts {st : GState} {e : GEv} {rest : List GEv}
    (hB : GInvB st) (hex : extractMinBy evRank st.pending = some (e, rest)) :
    e ∈ st.pending ∧ (∀ y ∈ rest, y ∈ st.pending) ∧
      (∀ y ∈ rest, e.time ≤ y.time) ∧ st.now ≤ e.time ∧
      (∀ y ∈ rest, y.seq ≠ e.seq) ∧
      (∀ y ∈ st.pending, y = e ∨ y ∈ rest) := by
  have hperm : st.pending.Perm (e :: rest) := extractMinBy_perm hex
  have hein : e ∈ st.pending := (hperm.mem_iff).mpr (List.mem_cons_self _ _)
  have hseqP : (st.pending.map (fun x => x.seq)).Perm
      (e.seq :: rest.map (fun x => x.seq)) := by
    simpa using hperm.map (fun x => x.seq)
  have hseqnd := (hseqP.nodup_iff).mp hB.seqNd
  refine ⟨hein,
    fun y hy => (hperm.mem_iff).mpr (List.mem_cons_of_mem _ hy),
    fun y hy => rankLeb_time_le (extractMinBy_min hex y hy),
    hB.nowLe e hein, ?_,
    fun y hy => List.mem_cons.mp ((hperm.mem_iff).mp hy)⟩
  intro y hy heq
  exact (List.nodup_cons.mp hseqnd).1 (List.mem_map.mpr ⟨y, hy, heq⟩)

/-- Preservation through the post-cooldown body of `acquireSlot`
(`grantOrQueue`), for a popped event `e` owning call key `key` whose call
started at `start`. -/
theorem ginvB_grantOrQueue_aux {st : GState} {e : GEv} {rest : List GEv} {key start : Nat}
    (hB : GInvB st) (hex : extractMinBy evRank st.pending = some (e, rest))
    (hKe : evCallKeys e = [key])
    (hstart1 : start ≤ e.time) (hstart2 : e.time ≤ start + 60000) :
    GInvB (grantOrQueue { st with pending := rest, now := e.time } key start) := by
  obtain ⟨hein, hmemP, htle, hnow, hseqne, hsplit⟩ := pop_facts hB hex
  have hK4 : (key :: (rest.flatMap evCallKeys ++
      (st.queue.map (fun w => w.key) ++ st.log.map (fun en => en.key)))).Nodup := by
    have := keyNd_pop hB.keyNd (extractMinBy_perm hex)
    rwa [hKe] at this
  have hKrest := (List.nodup_cons.mp hK4).1
  have hKnd := (List.nodup_cons.mp hK4).2
  have heNotTimer : ∀ k', e.act ≠ GAct.waiterTimeout k' := by
    intro k' hk'
    rw [show evCallKeys e = [] from by simp [evCallKeys, hk']] at hKe
    cases hKe
  have hTimerRest : ∀ y ∈ st.pending, (∃ k', y.act = GAct.waiterTimeout k') → y ∈ rest := by
    intro y hy ⟨k', hk'⟩
    rcases hsplit y hy with h' | h'
    · exact absurd (h' ▸ hk') (heNotTimer k')
    · exact h'
  have hrestSeqNd : (rest.map (fun x => x.seq)).Nodup := by
    have hperm : st.pending.Perm (e :: rest) := extractMinBy_perm hex
    have hseqP : (st.pending.map (fun x => x.seq)).Perm
        (e.seq :: rest.map (fun x => x.seq)) := by
      simpa using hperm.map (fun x => x.seq)
    exact (List.nodup_cons.mp ((hseqP.nodup_iff).mp hB.seqNd)).2
  have hkeyNotQ : key ∉ st.queue.map (fun w => w.key) := by
    intro hmem
    exact hKrest (List.mem_append_right _ (List.mem_append_left _ hmem))
  have hkeyNotL : key ∉ st.log.map (fun en => en.key) := by
    intro hmem
    exact hKrest (List.mem_append_right _ (List.mem_append_right _ hmem))
  have hkeyNotR : key ∉ rest.flatMap evCallKeys := fun hmem =>
    hKrest (List.mem_append_left _ hmem)
  unfold grantOrQueue
  split
  · -- a slot is free: grant immediately
    refine ⟨?_, ?_, ?_, ?_, ?_, ?_, ?_, ?_, ?_, ?_, ?_, ?_⟩
    · intro y hy; exact htle y hy
    · have := hB.rluLe; simp; omega
    · intro y hy; exact hB.seqLt y (hmemP y hy)
    · exact hrestSeqNd
    · intro y hy k s hya
      obtain ⟨h1, h2, h3, h4⟩ := hB.slpB y (hmemP y hy) k s hya
      exact ⟨by simp; omega, h2, h3, by simp; omega⟩
    · intro y hy k hya w hw hkey
      exact hB.tmoB y (hmemP y hy) k hya w hw hkey
    · intro w hw
      obtain ⟨y, hy, hya⟩ := hB.wtT w hw
      exact ⟨y, hTimerRest y hy ⟨_, hya⟩, hya⟩
    · intro y hy k hya
      exact hB.tTw y (hmemP y hy) k hya
    · intro e1 he1 e2 he2 k h1 h2
      exact hB.tmoU e1 (hmemP _ he1) e2 (hmemP _ he2) k h1 h2
    · show (keyList _).Nodup
      unfold keyList
      simp only [List.map_append, List.map_cons]
      have hp : (rest.flatMap evCallKeys ++
            (st.queue.map (fun w => w.key) ++ (st.log.map (fun en => en.key) ++ [key]))).Perm
          (key :: (rest.flatMap evCallKeys ++
            (st.queue.map (fun w => w.key) ++ st.log.map (fun en => en.key)))) := by
        refine List.Perm.trans (List.Perm.append_left _ ?_) (List.perm_middle)
        refine List.Perm.trans (List.Perm.append_left _ ?_) (List.perm_middle)
        exact List.perm_append_singleton _ _
      refine (List.Perm.nodup_iff ?_).mpr hK4
      simpa [List.append_assoc] using hp
    · intro en hen
      simp only [List.mem_append, List.mem_singleton] at hen
      rcases hen with hen | hen
      · exact hB.logB en hen
      · subst hen; simp; omega
    · intro w hw
      have := hB.wStartLe w hw
      simp
      omega
  · -- both slots busy: append to the wait list, start the 120 s timer
    refine ⟨?_, ?_, ?_, ?_, ?_, ?_, ?_, ?_, ?_, ?_, ?_, ?_⟩
    · intro y hy
      simp only [List.mem_append, List.mem_singleton] at hy
      rcases hy with hy | hy
      · exact htle y hy
      · subst hy; simp
    · have := hB.rluLe; simp; omega
    · intro y hy
      simp only [List.mem_append, List.mem_singleton] at hy
      rcases hy with hy | hy
      · have := hB.seqLt y (hmemP y hy); simp; omega
      · subst hy; simp
    · simp only [List.map_append]
      refine List.Nodup.append hrestSeqNd (by simp) ?_
      intro x hx1 hx2
      obtain ⟨y, hy, hxy⟩ := List.mem_map.mp hx1
      have := hB.seqLt y (hmemP y hy)
      simp at hx2
      omega
    · intro y hy k s hya
      simp only [List.mem_append, List.mem_singleton] at hy
      rcases hy with hy | hy
      · obtain ⟨h1, h2, h3, h4⟩ := hB.slpB y (hmemP y hy) k s hya
        exact ⟨by simp; omega, h2, h3, by simp; omega⟩
      · subst hy; cases hya
    · intro y hy k hya w hw hkey
      rcases List.mem_append.mp hy with hy | hy
      · rcases List.mem_append.mp hw with hw | hw
        · exact hB.tmoB y (hmemP y hy) k hya w hw hkey
        · -- an old timer cannot be keyed by the fresh call key
          exfalso
          obtain ⟨w', hw', hwk⟩ := hB.tTw y (hmemP y hy) k hya
          have hws : w = ⟨key, start⟩ := List.mem_singleton.mp hw
          have hkk : key = k := by rw [hws] at hkey; exact hkey
          apply hkeyNotQ
          rw [hkk]
          exact List.mem_map.mpr ⟨w', hw', hwk⟩
      · have hye : y = ⟨e.time + 120000, st.nextSeq, GAct.waiterTimeout key⟩ :=
          List.mem_singleton.mp hy
        have hk : key = k := by
          rw [hye] at hya
          injection hya
        rcases List.mem_append.mp hw with hw | hw
        · exfalso
          apply hkeyNotQ
          rw [hk]
          exact List.mem_map.mpr ⟨w, hw, hkey⟩
        · have hws : w = ⟨key, start⟩ := List.mem_singleton.mp hw
          rw [hye, hws]
          show e.time + 120000 ≤ start + 180000
          omega
    · intro w hw
      simp only [List.mem_append, List.mem_singleton] at hw
      rcases hw with hw | hw
      · obtain ⟨y, hy, hya⟩ := hB.wtT w hw
        exact ⟨y, by simp [hTimerRest y hy ⟨_, hya⟩], hya⟩
      · subst hw
        refine ⟨⟨e.time + 120000, st.nextSeq, GAct.waiterTimeout key⟩, by simp, rfl⟩
    · intro y hy k hya
      simp only [List.mem_append, List.mem_singleton] at hy
      rcases hy with hy | hy
      · obtain ⟨w, hw, hwk⟩ := hB.tTw y (hmemP y hy) k hya
        exact ⟨w, by simp [hw], hwk⟩
      · subst hy
        simp only [] at hya
        injection hya with hk
        subst hk
        exact ⟨⟨key, start⟩, by simp, rfl⟩
    · intro e1 he1 e2 he2 k h1 h2
      simp only [List.mem_append, List.mem_singleton] at he1 he2
      rcases he1 with he1 | he1
      · rcases he2 with he2 | he2
        · exact hB.tmoU e1 (hmemP _ he1) e2 (hmemP _ he2) k h1 h2
        · -- old timer sharing the fresh key: impossible
          exfalso
          obtain ⟨w, hw, hwk⟩ := hB.tTw e1 (hmemP _ he1) k h1
          subst he2
          have hk : GAct.waiterTimeout key = GAct.waiterTimeout k := h2
          injection hk with hk'
          apply hkeyNotQ
          rw [hk']
          exact List.mem_map.mpr ⟨w, hw, hwk⟩
      · rcases he2 with he2 | he2
        · exfalso
          obtain ⟨w, hw, hwk⟩ := hB.tTw e2 (hmemP _ he2) k h2
          subst he1
          have hk : GAct.waiterTimeout key = GAct.waiterTimeout k := h1
          injection hk with hk'
          apply hkeyNotQ
          rw [hk']
          exact List.mem_map.mpr ⟨w, hw, hwk⟩
        · subst he1; subst he2; rfl
    · show (keyList _).Nodup
      unfold keyList
      simp only [List.map_append, List.map_cons, List.flatMap_append]
      have hKt : evCallKeys ⟨e.time + 120000, st.nextSeq, GAct.waiterTimeout key⟩ = [] := by
        simp [evCallKeys]
      have hp : ((rest.flatMap evCallKeys ++ []) ++
            ((st.queue.map (fun (w : GWaiter) => w.key) ++ [key]) ++ st.log.map (fun (en : GEntry) => en.key))).Perm
          (key :: (rest.flatMap evCallKeys ++
            (st.queue.map (fun (w : GWaiter) => w.key) ++ st.log.map (fun (en : GEntry) => en.key)))) := by
        refine List.Perm.trans ?_ List.perm_middle
        refine List.Perm.append (by simp) ?_
        refine List.Perm.trans (List.Perm.append_right _ (List.perm_append_singleton _ _)) ?_
        exact List.Perm.refl _
      refine (List.Perm.nodup_iff ?_).mpr hK4
      simpa [hKt, List.append_assoc] using hp
    · intro en hen
      exact hB.logB en hen
    · intro w hw
      simp only [List.mem_append, List.mem_singleton] at hw
      rcases hw with hw | hw
      · have := hB.wStartLe w hw; simp; omega
      · subst hw; simp; omega

theorem ginvB_doAcquire {st : GState} {e : GEv} {rest : List GEv}
    (hB : GInvB st) (hex : extractMinBy evRank st.pending = some (e, rest))
    (hact : e.act = GAct.ext GCmd.acquire) :
    GInvB (doAcquire { st with pending := rest, now := e.time } e.seq) := by
  obtain ⟨hein, hmemP, htle, hnow, hseqne, hsplit⟩ := pop_facts hB hex
  have hKe : evCallKeys e = [e.seq] := by simp [evCallKeys, hact]
  have hK4 : (e.seq :: (rest.flatMap evCallKeys ++
      (st.queue.map (fun w => w.key) ++ st.log.map (fun en => en.key)))).Nodup := by
    have := keyNd_pop hB.keyNd (extractMinBy_perm hex)
    rwa [hKe] at this
  have hKrest : e.seq ∉ rest.flatMap evCallKeys ++
      (st.queue.map (fun w => w.key) ++ st.log.map (fun en => en.key)) :=
    (List.nodup_cons.mp hK4).1
  have hKnd : (rest.flatMap evCallKeys ++
      (st.queue.map (fun w => w.key) ++ st.log.map (fun en => en.key))).Nodup :=
    (List.nodup_cons.mp hK4).2
  have heNotTimer : ∀ w ∈ st.queue,
      ∀ y ∈ st.pending, y.act = GAct.waiterTimeout w.key → y ∈ rest := by
    intro w hw y hy hya
    rcases hsplit y hy with h' | h'
    · rw [h', hact] at hya; cases hya
    · exact h'
  have hrestSeqNd : (rest.map (fun x => x.seq)).Nodup := by
    have hperm : st.pending.Perm (e :: rest) := extractMinBy_perm hex
    have hseqP : (st.pending.map (fun x => x.seq)).Perm
        (e.seq :: rest.map (fun x => x.seq)) := by
      simpa using hperm.map (fun x => x.seq)
    exact (List.nodup_cons.mp ((hseqP.nodup_iff).mp hB.seqNd)).2
  unfold doAcquire
  split
  · -- rate-limited: schedule a sleeper waking at `rateLimitedUntil`
    rename_i hrl
    have hrl' : e.time < st.rateLimitedUntil := hrl
    refine ⟨?_, ?_, ?_, ?_, ?_, ?_, ?_, ?_, ?_, ?_, ?_, ?_⟩
    · intro y hy
      simp only [List.mem_append, List.mem_singleton] at hy
      rcases hy with hy | hy
      · exact htle y hy
      · subst hy; exact le_of_lt hrl'
    · have := hB.rluLe; simp; omega
    · intro y hy
      simp only [List.mem_append, List.mem_singleton] at hy
      rcases hy with hy | hy
      · have := hB.seqLt y (hmemP y hy); simp; omega
      · subst hy; simp
    · simp only [List.map_append]
      refine List.Nodup.append hrestSeqNd (by simp) ?_
      intro x hx1 hx2
      obtain ⟨y, hy, hxy⟩ := List.mem_map.mp hx1
      have := hB.seqLt y (hmemP y hy)
      simp at hx2
      omega
    · intro y hy k s hya
      simp only [List.mem_append, List.mem_singleton] at hy
      rcases hy with hy | hy
      · obtain ⟨h1, h2, h3, h4⟩ := hB.slpB y (hmemP y hy) k s hya
        exact ⟨by simp; omega, h2, h3, by simp; omega⟩
      · subst hy
        have hya2 : GAct.sleeperWake e.seq e.time = GAct.sleeperWake k s := hya
        injection hya2 with hk hs
        subst hk; subst hs
        refine ⟨le_refl _, hrl', ?_, le_refl _⟩
        show st.rateLimitedUntil ≤ e.time + 60000
        have := hB.rluLe
        omega
    · intro y hy k hya w hw hkey
      simp only [List.mem_append, List.mem_singleton] at hy
      rcases hy with hy | hy
      · exact hB.tmoB y (hmemP y hy) k hya w hw hkey
      · subst hy; cases hya
    · intro w hw
      obtain ⟨y, hy, hya⟩ := hB.wtT w hw
      exact ⟨y, by simp [heNotTimer w hw y hy hya], hya⟩
    · intro y hy k hya
      simp only [List.mem_append, List.mem_singleton] at hy
      rcases hy with hy | hy
      · exact hB.tTw y (hmemP y hy) k hya
      · subst hy; cases hya
    · intro e1 he1 e2 he2 k h1 h2
      simp only [List.mem_append, List.mem_singleton] at he1 he2
      rcases he1 with he1 | he1
      · rcases he2 with he2 | he2
        · exact hB.tmoU e1 (hmemP _ he1) e2 (hmemP _ he2) k h1 h2
        · subst he2; cases h2
      · subst he1; cases h1
    · show (keyList _).Nodup
      unfold keyList
      simp only [List.flatMap_append]
      have hKs : evCallKeys ⟨st.rateLimitedUntil, st.nextSeq,
          GAct.sleeperWake e.seq e.time⟩ = [e.seq] := by simp [evCallKeys]
      have hp : ((rest.flatMap evCallKeys ++ [e.seq]) ++
            (st.queue.map (fun w => w.key) ++ st.log.map (fun en => en.key))).Perm
          (e.seq :: (rest.flatMap evCallKeys ++
            (st.queue.map (fun w => w.key) ++ st.log.map (fun en => en.key)))) := by
        have h1 : (rest.flatMap evCallKeys ++ [e.seq]).Perm
            (e.seq :: rest.flatMap evCallKeys) := List.perm_append_singleton _ _
        exact (h1.append_right _).trans (List.Perm.refl _)
      refine (List.Perm.nodup_iff ?_).mpr hK4
      simpa [hKs, List.append_assoc] using hp
    · intro en hen
      exact hB.logB en hen
    · intro w hw
      have := hB.wStartLe w hw
      simp
      omega
  · -- not rate-limited: grab a slot or queue up, keyed by the command event
    exact ginvB_grantOrQueue_aux hB hex hKe (le_refl _)
      (by show e.time ≤ e.time + 60000; omega)

theorem ginvB_sleeperWake {st : GState} {e : GEv} {rest : List GEv} {k s : Nat}
    (hB : GInvB st) (hex : extractMinBy evRank st.pending = some (e, rest))
    (hact : e.act = GAct.sleeperWake k s) :
    GInvB (grantOrQueue { st with pending := rest, now := e.time } k s) := by
  obtain ⟨hein, _, _, _, _, _⟩ := pop_facts hB hex
  obtain ⟨h1, h2, h3, h4⟩ := hB.slpB e hein k s hact
  exact ginvB_grantOrQueue_aux hB hex (by simp [evCallKeys, hact]) (le_of_lt h2) h3

theorem ginvB_doSetRateLimited {st : GState} {e : GEv} {rest : List GEv}
    (hB : GInvB st) (hex : extractMinBy evRank st.pending = some (e, rest))
    (hact : e.act = GAct.ext GCmd.setRateLimited) :
    GInvB (doSetRateLimited { st with pending := rest, now := e.time }) := by
  obtain ⟨hein, hmemP, htle, hnow, hseqne, hsplit⟩ := pop_facts hB hex
  have hTimerRest : ∀ y ∈ st.pending, (∃ k', y.act = GAct.waiterTimeout k') → y ∈ rest := by
    intro y hy ⟨k', hk'⟩
    rcases hsplit y hy with h' | h'
    · rw [h', hact] at hk'; cases hk'
    · exact h'
  have hrestSeqNd : (rest.map (fun x => x.seq)).Nodup := by
    have hperm : st.pending.Perm (e :: rest) := extractMinBy_perm hex
    have hseqP : (st.pending.map (fun x => x.seq)).Perm
        (e.seq :: rest.map (fun x => x.seq)) := by
      simpa using hperm.map (fun x => x.seq)
    exact (List.nodup_cons.mp ((hseqP.nodup_iff).mp hB.seqNd)).2
  have hK0 : (rest.flatMap evCallKeys ++
      (st.queue.map (fun w => w.key) ++ st.log.map (fun en => en.key))).Nodup := by
    have := keyNd_pop hB.keyNd (extractMinBy_perm hex)
    rwa [show evCallKeys e = [] from by simp [evCallKeys, hact],
      List.nil_append] at this
  refine ⟨?_, ?_, ?_, ?_, ?_, ?_, ?_, ?_, ?_, ?_, ?_, ?_⟩
  · intro y hy; exact htle y hy
  · show e.time + 60000 ≤ e.time + 60000; omega
  · intro y hy; exact hB.seqLt y (hmemP y hy)
  · exact hrestSeqNd
  · intro y hy k s hya
    obtain ⟨h1, h2, h3, h4⟩ := hB.slpB y (hmemP y hy) k s hya
    have := hB.rluLe
    refine ⟨by show s ≤ e.time; omega, h2, h3, ?_⟩
    show y.time ≤ e.time + 60000
    omega
  · intro y hy k hya w hw hkey
    exact hB.tmoB y (hmemP y hy) k hya w hw hkey
  · intro w hw
    obtain ⟨y, hy, hya⟩ := hB.wtT w hw
    exact ⟨y, hTimerRest y hy ⟨_, hya⟩, hya⟩
  · intro y hy k hya
    exact hB.tTw y (hmemP y hy) k hya
  · intro e1 he1 e2 he2 k h1 h2
    exact hB.tmoU e1 (hmemP _ he1) e2 (hmemP _ he2) k h1 h2
  · show (keyList _).Nodup
    unfold keyList
    simpa [List.append_assoc] using hK0
  · intro en hen; exact hB.logB en hen
  · intro w hw
    have := hB.wStartLe w hw
    show w.start ≤ e.time
    omega

theorem ginvB_doRelease {st : GState} {e : GEv} {rest : List GEv}
    (hB : GInvB st) (hex : extractMinBy evRank st.pending = some (e, rest))
    (hact : e.act = GAct.ext GCmd.release) :
    GInvB (doRelease { st with pending := rest, now := e.time }) := by
  obtain ⟨hein, hmemP, htle, hnow, hseqne, hsplit⟩ := pop_facts hB hex
  have hTimerRest : ∀ y ∈ st.pending, (∃ k', y.act = GAct.waiterTimeout k') → y ∈ rest := by
    intro y hy ⟨k', hk'⟩
    rcases hsplit y hy with h' | h'
    · rw [h', hact] at hk'; cases hk'
    · exact h'
  have hrestSeqNd : (rest.map (fun x => x.seq)).Nodup := by
    have hperm : st.pending.Perm (e :: rest) := extractMinBy_perm hex
    have hseqP : (st.pending.map (fun x => x.seq)).Perm
        (e.seq :: rest.map (fun x => x.seq)) := by
      simpa using hperm.map (fun x => x.seq)
    exact (List.nodup_cons.mp ((hseqP.nodup_iff).mp hB.seqNd)).2
  have hK0 : (rest.flatMap evCallKeys ++
      (st.queue.map (fun w => w.key) ++ st.log.map (fun en => en.key))).Nodup := by
    have := keyNd_pop hB.keyNd (extractMinBy_perm hex)
    rwa [show evCallKeys e = [] from by simp [evCallKeys, hact],
      List.nil_append] at this
  unfold doRelease
  split
  · -- empty wait queue: just clamp the counter
    rename_i hq
    have hqe : st.queue = [] := hq
    refine ⟨?_, ?_, ?_, ?_, ?_, ?_, ?_, ?_, ?_, ?_, ?_, ?_⟩
    · intro y hy; exact htle y hy
    · show st.rateLimitedUntil ≤ e.time + 60000
      have := hB.rluLe; omega
    · intro y hy; exact hB.seqLt y (hmemP y hy)
    · exact hrestSeqNd
    · intro y hy k s hya
      obtain ⟨h1, h2, h3, h4⟩ := hB.slpB y (hmemP y hy) k s hya
      exact ⟨by show s ≤ e.time; omega, h2, h3, h4⟩
    · intro y hy k hya w hw hkey
      exact hB.tmoB y (hmemP y hy) k hya w (by rw [hqe] at hw ⊢; exact hw) hkey
    · intro w hw
      rw [hqe] at hw
      cases hw
    · intro y hy k hya
      obtain ⟨w, hw, hwk⟩ := hB.tTw y (hmemP y hy) k hya
      rw [hqe] at hw
      cases hw
    · intro e1 he1 e2 he2 k h1 h2
      exact hB.tmoU e1 (hmemP _ he1) e2 (hmemP _ he2) k h1 h2
    · show (keyList _).Nodup
      unfold keyList
      simpa [List.append_assoc] using hK0
    · intro en hen; exact hB.logB en hen
    · intro w hw
      have := hB.wStartLe w hw
      show w.start ≤ e.time
      omega
  · rename_i w qrest hq
    have hqe : st.queue = w :: qrest := hq
    have hqknd : (st.queue.map (fun w2 => w2.key)).Nodup := nodup3_mid hB.keyNd
    have hwkey : w.key ∉ qrest.map (fun w2 => w2.key) := by
      rw [hqe] at hqknd
      exact (List.nodup_cons.mp (by simpa using hqknd)).1
    split
    · -- grant the queue head: clear its timer, move it to the log
      refine ⟨?_, ?_, ?_, ?_, ?_, ?_, ?_, ?_, ?_, ?_, ?_, ?_⟩
      · intro y hy
        exact htle y (List.mem_of_mem_filter hy)
      · show st.rateLimitedUntil ≤ e.time + 60000
        have := hB.rluLe; omega
      · intro y hy
        exact hB.seqLt y (hmemP y (List.mem_of_mem_filter hy))
      · exact hrestSeqNd.sublist ((List.filter_sublist _).map _)
      · intro y hy k s hya
        obtain ⟨h1, h2, h3, h4⟩ := hB.slpB y (hmemP y (List.mem_of_mem_filter hy)) k s hya
        exact ⟨by show s ≤ e.time; omega, h2, h3, h4⟩
      · intro y hy k hya w2 hw2 hkey
        exact hB.tmoB y (hmemP y (List.mem_of_mem_filter hy)) k hya w2
          (by rw [hqe]; exact List.mem_cons_of_mem _ hw2) hkey
      · intro w2 hw2
        obtain ⟨t, ht, hta⟩ := hB.wtT w2 (by rw [hqe]; exact List.mem_cons_of_mem _ hw2)
        have htr : t ∈ rest := hTimerRest t ht ⟨_, hta⟩
        refine ⟨t, List.mem_filter.mpr ⟨htr, ?_⟩, hta⟩
        have hne : w2.key ≠ w.key := by
          intro hk
          exact hwkey (hk ▸ List.mem_map.mpr ⟨w2, hw2, rfl⟩)
        simp [isTimeoutFor, hta, hne]
      · intro y hy k hya
        obtain ⟨hyr, hyf⟩ := List.mem_filter.mp hy
        obtain ⟨w2, hw2, hwk2⟩ := hB.tTw y (hmemP y hyr) k hya
        rw [hqe] at hw2
        rcases List.mem_cons.mp hw2 with hw2 | hw2
        · exfalso
          rw [hw2] at hwk2
          rw [show isTimeoutFor w.key y = true from by simp [isTimeoutFor, hya, hwk2]] at hyf
          simp at hyf
        · exact ⟨w2, hw2, hwk2⟩
      · intro e1 he1 e2 he2 k h1 h2
        exact hB.tmoU e1 (hmemP _ (List.mem_of_mem_filter he1)) e2
          (hmemP _ (List.mem_of_mem_filter he2)) k h1 h2
      · show (keyList _).Nodup
        unfold keyList
        have hfk : ((rest.filter (fun ev => !(isTimeoutFor w.key ev))).flatMap evCallKeys) =
            rest.flatMap evCallKeys := by
          apply filter_bind_keys
          intro x hx hpx
          simp only [Bool.not_eq_false'] at hpx
          unfold isTimeoutFor at hpx
          unfold evCallKeys
          cases hax : x.act with
          | ext c => simp [hax] at hpx
          | sleeperWake k2 s2 => simp [hax] at hpx
          | waiterTimeout k2 => simp [hax]
        simp only [List.map_append, List.map_cons, List.map_nil]
        rw [hfk]
        have hK1 : (rest.flatMap evCallKeys ++
            (w.key :: (qrest.map (fun w2 => w2.key) ++ st.log.map (fun en => en.key)))).Nodup := by
          rw [hqe] at hK0
          simpa using hK0
        refine (List.Perm.nodup_iff ?_).mpr hK1
        rw [List.append_assoc]
        refine List.Perm.append_left _ ?_
        refine List.Perm.trans (List.Perm.append_left _ (List.perm_append_singleton _ _)) ?_
        exact List.perm_middle
      · intro en hen
        rcases List.mem_append.mp hen with hen | hen
        · exact hB.logB en hen
        · have hene : en = ⟨w.key, w.start, e.time, GOut.grantedFromQueue⟩ :=
            List.mem_singleton.mp hen
          obtain ⟨t, ht, hta⟩ := hB.wtT w (by rw [hqe]; exact List.mem_cons_self _ _)
          have hbd := hB.tmoB t ht w.key hta w
            (by rw [hqe]; exact List.mem_cons_self _ _) rfl
          have htr : t ∈ rest := hTimerRest t ht ⟨_, hta⟩
          have := htle t htr
          rw [hene]
          show e.time ≤ w.start + 180000
          omega
      · intro w2 hw2
        have := hB.wStartLe w2 (by rw [hqe]; exact List.mem_cons_of_mem _ hw2)
        show w2.start ≤ e.time
        omega
    · -- both slots still busy after the decrement: nothing granted
      refine ⟨?_, ?_, ?_, ?_, ?_, ?_, ?_, ?_, ?_, ?_, ?_, ?_⟩
      · intro y hy; exact htle y hy
      · show st.rateLimitedUntil ≤ e.time + 60000
        have := hB.rluLe; omega
      · intro y hy; exact hB.seqLt y (hmemP y hy)
      · exact hrestSeqNd
      · intro y hy k s hya
        obtain ⟨h1, h2, h3, h4⟩ := hB.slpB y (hmemP y hy) k s hya
        exact ⟨by show s ≤ e.time; omega, h2, h3, h4⟩
      · intro y hy k hya w2 hw2 hkey
        exact hB.tmoB y (hmemP y hy) k hya w2 hw2 hkey
      · intro w2 hw2
        obtain ⟨t, ht, hta⟩ := hB.wtT w2 hw2
        exact ⟨t, hTimerRest t ht ⟨_, hta⟩, hta⟩
      · intro y hy k hya
        exact hB.tTw y (hmemP y hy) k hya
      · intro e1 he1 e2 he2 k h1 h2
        exact hB.tmoU e1 (hmemP _ he1) e2 (hmemP _ he2) k h1 h2
      · show (keyList _).Nodup
        unfold keyList
        simpa [List.append_assoc] using hK0
      · intro en hen; exact hB.logB en hen
      · intro w2 hw2
        have := hB.wStartLe w2 hw2
        show w2.start ≤ e.time
        omega

theorem ginvB_doTimeout {st : GState} {e : GEv} {rest : List GEv} {k : Nat}
    (hB : GInvB st) (hex : extractMinBy evRank st.pending = some (e, rest))
    (hact : e.act = GAct.waiterTimeout k) :
    GInvB (doTimeout { st with pending := rest, now := e.time } k) := by
  obtain ⟨hein, hmemP, htle, hnow, hseqne, hsplit⟩ := pop_facts hB hex
  have hrestSeqNd : (rest.map (fun x => x.seq)).Nodup := by
    have hperm : st.pending.Perm (e :: rest) := extractMinBy_perm hex
    have hseqP : (st.pending.map (fun x => x.seq)).Perm
        (e.seq :: rest.map (fun x => x.seq)) := by
      simpa using hperm.map (fun x => x.seq)
    exact (List.nodup_cons.mp ((hseqP.nodup_iff).mp hB.seqNd)).2
  have hK0 : (rest.flatMap evCallKeys ++
      (st.queue.map (fun w => w.key) ++ st.log.map (fun en => en.key))).Nodup := by
    have := keyNd_pop hB.keyNd (extractMinBy_perm hex)
    rwa [show evCallKeys e = [] from by simp [evCallKeys, hact],
      List.nil_append] at this
  have hqknd : (st.queue.map (fun w2 => w2.key)).Nodup := nodup3_mid hB.keyNd
  unfold doTimeout
  split
  · -- waiter already gone (timer cleared race is impossible here, but the
    -- source guards with findIndex ≠ -1): nothing changes
    rename_i hfind
    have hfnone : ∀ w ∈ st.queue, ¬ (w.key == k) = true := by
      have : st.queue.find? (fun w => w.key == k) = none := hfind
      exact fun w hw => List.find?_eq_none.mp this w hw
    refine ⟨?_, ?_, ?_, ?_, ?_, ?_, ?_, ?_, ?_, ?_, ?_, ?_⟩
    · intro y hy; exact htle y hy
    · show st.rateLimitedUntil ≤ e.time + 60000
      have := hB.rluLe; omega
    · intro y hy; exact hB.seqLt y (hmemP y hy)
    · exact hrestSeqNd
    · intro y hy k2 s hya
      obtain ⟨h1, h2, h3, h4⟩ := hB.slpB y (hmemP y hy) k2 s hya
      exact ⟨by show s ≤ e.time; omega, h2, h3, h4⟩
    · intro y hy k2 hya w hw hkey
      exact hB.tmoB y (hmemP y hy) k2 hya w hw hkey
    · intro w hw
      obtain ⟨t, ht, hta⟩ := hB.wtT w hw
      rcases hsplit t ht with h' | h'
      · exfalso
        rw [h', hact] at hta
        injection hta with hk
        exact hfnone w hw (by simp [hk])
      · exact ⟨t, h', hta⟩
    · intro y hy k2 hya
      exact hB.tTw y (hmemP y hy) k2 hya
    · intro e1 he1 e2 he2 k2 h1 h2
      exact hB.tmoU e1 (hmemP _ he1) e2 (hmemP _ he2) k2 h1 h2
    · show (keyList _).Nodup
      unfold keyList
      simpa [List.append_assoc] using hK0
    · intro en hen; exact hB.logB en hen
    · intro w hw
      have := hB.wStartLe w hw
      show w.start ≤ e.time
      omega
  · -- the waiter is still queued: reject it with the slot timeout
    rename_i w hfind
    have hwmem : w ∈ st.queue := List.mem_of_find?_eq_some hfind
    have hwkey := List.find?_some hfind
    have hwk : w.key = k := by simpa using hwkey
    have hqperm : st.queue.Perm (w :: st.queue.eraseP (fun w2 => w2.key == k)) :=
      find?_eraseP_perm hfind
    have hqkperm : (st.queue.map (fun w2 => w2.key)).Perm
        (w.key :: (st.queue.eraseP (fun w2 => w2.key == k)).map (fun w2 => w2.key)) := by
      simpa using hqperm.map (fun w2 => w2.key)
    have herasednd := (hqkperm.nodup_iff).mp hqknd
    have hwnotE : w.key ∉ (st.queue.eraseP (fun w2 => w2.key == k)).map (fun w2 => w2.key) :=
      (List.nodup_cons.mp herasednd).1
    refine ⟨?_, ?_, ?_, ?_, ?_, ?_, ?_, ?_, ?_, ?_, ?_, ?_⟩
    · intro y hy; exact htle y hy
    · show st.rateLimitedUntil ≤ e.time + 60000
      have := hB.rluLe; omega
    · intro y hy; exact hB.seqLt y (hmemP y hy)
    · exact hrestSeqNd
    · intro y hy k2 s hya
      obtain ⟨h1, h2, h3, h4⟩ := hB.slpB y (hmemP y hy) k2 s hya
      exact ⟨by show s ≤ e.time; omega, h2, h3, h4⟩
    · intro y hy k2 hya w2 hw2 hkey
      exact hB.tmoB y (hmemP y hy) k2 hya w2 (eraseP_subset w2 hw2) hkey
    · intro w2 hw2
      obtain ⟨t, ht, hta⟩ := hB.wtT w2 (eraseP_subset w2 hw2)
      rcases hsplit t ht with h' | h'
      · exfalso
        rw [h', hact] at hta
        injection hta with hk
        apply hwnotE
        exact List.mem_map.mpr ⟨w2, hw2, (hwk.trans hk).symm⟩
      · exact ⟨t, h', hta⟩
    · intro y hy k2 hya
      obtain ⟨w2, hw2, hwk2⟩ := hB.tTw y (hmemP y hy) k2 hya
      rcases List.mem_cons.mp ((hqperm.mem_iff).mp hw2) with hww | hww
      · -- the erased waiter: its timer would collide with the fired one
        exfalso
        have hkk : k = k2 := by rw [← hwk, ← hww]; exact hwk2
        have hseq := hB.tmoU y (hmemP y hy) e hein k2 hya (by rw [hact, hkk])
        exact hseqne y hy hseq
      · exact ⟨w2, hww, hwk2⟩
    · intro e1 he1 e2 he2 k2 h1 h2
      exact hB.tmoU e1 (hmemP _ he1) e2 (hmemP _ he2) k2 h1 h2
    · show (keyList _).Nodup
      unfold keyList
      simp only [List.map_append, List.map_cons, List.map_nil]
      have hK1 : (rest.flatMap evCallKeys ++
          (w.key :: ((st.queue.eraseP (fun w2 => w2.key == k)).map (fun w2 => w2.key) ++
            st.log.map (fun en => en.key)))).Nodup := by
        refine (List.Perm.nodup_iff ?_).mpr hK0
        refine (List.Perm.append_left _ ?_).symm
        exact (hqkperm.append_right _).trans (List.Perm.refl _)
      refine (List.Perm.nodup_iff ?_).mpr hK1
      rw [List.append_assoc]
      refine List.Perm.append_left _ ?_
      refine List.Perm.trans (List.Perm.append_left _ (List.perm_append_singleton _ _)) ?_
      exact List.perm_middle
    · intro en hen
      rcases List.mem_append.mp hen with hen | hen
      · exact hB.logB en hen
      · have hene : en = ⟨w.key, w.start, e.time, GOut.slotTimeout⟩ :=
          List.mem_singleton.mp hen
        have hbd := hB.tmoB e hein k hact w hwmem hwk
        rw [hene]
        show e.time ≤ w.start + 180000
        exact hbd
    · intro w2 hw2
      have := hB.wStartLe w2 (eraseP_subset w2 hw2)
      show w2.start ≤ e.time
      omega

theorem ginvB_gcmStep {st : GState} (hB : GInvB st) : GInvB (gcmStep st) := by
  unfold gcmStep
  split
  · exact hB
  · rename_i p e rest heq
    split
    · rename_i hact
      exact ginvB_doAcquire hB heq hact
    · rename_i hact
      exact ginvB_doRelease hB heq hact
    · rename_i hact
      exact ginvB_doSetRateLimited hB heq hact
    · rename_i k s hact
      exact ginvB_sleeperWake hB heq hact
    · rename_i k hact
      exact ginvB_doTimeout hB heq hact

theorem ginvB_gcmRun (fuel : Nat) {st : GState} (hB : GInvB st) :
    GInvB (gcmRun fuel st) := by
  induction fuel generalizing st with
  | zero => exact hB
  | succ n ih =>
      unfold gcmRun
      split
      · exact hB
      · exact ih (ginvB_gcmStep hB)

/-- C6 (amended).  Every `acquireSlot` call settles — granted or rejected
with the slot-timeout error — within `rate-limit remaining at call time
(at most 60 s) + 120 s` of the instant it was made, i.e. within 180 000 ms;
the 120 s timer of the claim starts only after the rate-limit sleep, so
120 000 ms alone does not bound the pending window. -/
theorem acquireSlot_settles_within_cooldown_plus_timeout
    (cmds : List (Nat × GCmd)) (fuel : Nat) :
    ∀ en ∈ (gcmRun fuel (gcmInit cmds)).log, en.time ≤ en.start + 180000 :=
  fun en hen => (ginvB_gcmRun fuel (ginvB_init cmds)).logB en hen

/-- Witness for C6 (amended) on a concrete trace: one `acquireSlot` at
t = 0 is granted at t = 0, within the bound. -/
theorem acquireSlot_settles_witness :
    (⟨0, 0, 0, GOut.grantedDirect⟩ : GEntry) ∈
        (gcmRun 2 (gcmInit [(0, GCmd.acquire)])).log ∧
      (0 : Nat) ≤ 0 + 180000 :=
  ⟨by decide,
    acquireSlot_settles_within_cooldown_plus_timeout [(0, GCmd.acquire)] 2
      ⟨0, 0, 0, GOut.grantedDirect⟩ (by decide)⟩

/-- Counterexample to C6 as stated: with a rate limit set at t = 0 and
three `acquireSlot` calls at t = 0, the third call sleeps out the 60 s
cooldown, then queues behind the two granted calls; its 120 s timer starts
only at t = 60 000, so it is still pending 120 s after it started and is
rejected with the slot timeout only at t = 180 000 — more than 120 000 ms
after the call. -/
theorem acquireSlot_not_settled_within_120s :
    ∃ en ∈ (gcmRun 10 (gcmInit
        [(0, GCmd.setRateLimited), (0, GCmd.acquire), (0, GCmd.acquire),
          (0, GCmd.acquire)])).log,
      en.out = GOut.slotTimeout ∧ en.start + 120000 < en.time := by
  decide

/-! ### FIFO order of the wait queue (C4)

A queued waiter is identified by the pair (call instant, command creation
number); `pairLe` is the arrival order (time, then command order for calls
in the same millisecond).  `qgrantPairs` lists the waiters granted out of
the wait queue by `releaseSlot`, in grant order; `chainOf` appends the
still-queued waiters.  The FIFO property is that this whole chain stays
sorted.  One genuine scheduling race is excluded by hypothesis: an
`acquireSlot` call arriving in exactly the millisecond in which an earlier
sleeping call's cooldown timer fires (`t = u + 60000`) may be served
before that older call, since Node does not order a just-due timer against
other events in the same tick. -/

/-- Arrival order on (call instant, command creation number). -/
def pairLe (a b : Nat × Nat) : Prop :=
  a.1 < b.1 ∨ (a.1 = b.1 ∧ a.2 ≤ b.2)

/-- The waiters `releaseSlot` granted out of the wait queue, in grant
order, as (call instant, call key) pairs. -/
def qgrantPairs (log : List GEntry) : List (Nat × Nat) :=
  (log.filter (fun en => en.out == GOut.grantedFromQueue)).map
    (fun en => (en.start, en.key))

/-- Granted-from-queue calls followed by the still-queued waiters. -/
def chainOf (st : GState) : List (Nat × Nat) :=
  qgrantPairs st.log ++ st.queue.map (fun w => (w.start, w.key))

/-- The tie hypothesis: no `acquireSlot` command is issued in exactly the
millisecond a rate-limit cooldown expires. -/
def NoWakeTie (cmds : List (Nat × GCmd)) : Prop :=
  ∀ t u, (t, GCmd.acquire) ∈ cmds → (u, GCmd.setRateLimited) ∈ cmds →
    t ≠ u + 60000

/-- Trace-dependent invariant for FIFO order: pending command events come
from the trace (`extFrom`), sleeper wake instants and the cooldown bound
come from some `setRateLimited` command (`slpFrom`, `rluFrom`), the
granted++queued chain is sorted by arrival (`chainSorted`), and every
pending call that will still be enqueued — a command event or a sleeper —
arrives strictly after everything already in the chain (`chainLe`,
`chainLeSlp`), with sleepers ordered among themselves by firing rank
(`slpPair`) and before any later direct call (`slpLeExt`). -/
structure GInvF (cmds : List (Nat × GCmd)) (st : GState) : Prop where
  extFrom : ∀ e ∈ st.pending, ∀ c, e.act = GAct.ext c → (e.time, c) ∈ cmds
  slpFrom : ∀ e ∈ st.pending, ∀ k s, e.act = GAct.sleeperWake k s →
      ∃ u, (u, GCmd.setRateLimited) ∈ cmds ∧ e.time = u + 60000
  rluFrom : st.rateLimitedUntil = 0 ∨
      ∃ u, (u, GCmd.setRateLimited) ∈ cmds ∧ st.rateLimitedUntil = u + 60000
  chainSorted : List.Pairwise pairLe (chainOf st)
  chainLe : ∀ p ∈ chainOf st, ∀ a ∈ st.pending, a.act = GAct.ext GCmd.acquire →
      p.1 < a.time ∨ (p.1 = a.time ∧ p.2 < a.seq)
  chainLeSlp : ∀ p ∈ chainOf st, ∀ a ∈ st.pending, ∀ k s,
      a.act = GAct.sleeperWake k s → p.1 < s ∨ (p.1 = s ∧ p.2 < k)
  slpLeExt : ∀ a1 ∈ st.pending, ∀ k s, a1.act = GAct.sleeperWake k s →
      ∀ a2 ∈ st.pending, a2.act = GAct.ext GCmd.acquire →
      s < a2.time ∨ (s = a2.time ∧ k < a2.seq)
  slpPair : ∀ a1 ∈ st.pending, ∀ a2 ∈ st.pending, ∀ k1 s1 k2 s2,
      a1.act = GAct.sleeperWake k1 s1 → a2.act = GAct.sleeperWake k2 s2 →
      rankLeb (evRank a1) (evRank a2) = true → pairLe (s1, k1) (s2, k2)

theorem ginvF_init (cmds : List (Nat × GCmd)) : GInvF cmds (gcmInit cmds) := by
  have hext : ∀ e ∈ tagCmds 0 cmds, ∃ c, e.act = GAct.ext c :=
    fun e he => ⟨(tagCmds_mem he).2.2.choose, (tagCmds_mem he).2.2.choose_spec.1⟩
  refine ⟨?_, ?_, ?_, ?_, ?_, ?_, ?_, ?_⟩
  · intro e he c hc
    obtain ⟨_, _, c', hc', hmem⟩ := tagCmds_mem he
    rw [hc] at hc'
    injection hc' with h'
    rw [h']
    exact hmem
  · intro e he k s hact
    obtain ⟨c, hc⟩ := hext e he
    rw [hc] at hact
    cases hact
  · exact Or.inl rfl
  · simp [chainOf, qgrantPairs, gcmInit]
  · intro p hp
    simp [chainOf, qgrantPairs, gcmInit] at hp
  · intro p hp
    simp [chainOf, qgrantPairs, gcmInit] at hp
  · intro a1 h1 k s hact
    obtain ⟨c, hc⟩ := hext a1 h1
    rw [hc] at hact
    cases hact
  · intro a1 h1 a2 h2 k1 s1 k2 s2 hact1 hact2
    obtain ⟨c, hc⟩ := hext a1 h1
    rw [hc] at hact1
    cases hact1

theorem ginvF_doSetRateLimited {cmds : List (Nat × GCmd)} {st : GState} {e : GEv}
    {rest : List GEv} (hB : GInvB st) (hF : GInvF cmds st)
    (hex : extractMinBy evRank st.pending = some (e, rest))
    (hact : e.act = GAct.ext GCmd.setRateLimited) :
    GInvF cmds (doSetRateLimited { st with pending := rest, now := e.time }) := by
  obtain ⟨hein, hmemP, htle, hnow, hseqne, hsplit⟩ := pop_facts hB hex
  have hmem : (e.time, GCmd.setRateLimited) ∈ cmds := hF.extFrom e hein _ hact
  refine ⟨?_, ?_, ?_, ?_, ?_, ?_, ?_, ?_⟩
  · intro y hy c hc; exact hF.extFrom y (hmemP y hy) c hc
  · intro y hy k s hk; exact hF.slpFrom y (hmemP y hy) k s hk
  · exact Or.inr ⟨e.time, hmem, rfl⟩
  · exact hF.chainSorted
  · intro p hp a ha hc; exact hF.chainLe p hp a (hmemP a ha) hc
  · intro p hp a ha k s hk; exact hF.chainLeSlp p hp a (hmemP a ha) k s hk
  · intro a1 h1 k s hk a2 h2 hc2
    exact hF.slpLeExt a1 (hmemP _ h1) k s hk a2 (hmemP _ h2) hc2
  · intro a1 h1 a2 h2 k1 s1 k2 s2 hk1 hk2 hrank
    exact hF.slpPair a1 (hmemP _ h1) a2 (hmemP _ h2) k1 s1 k2 s2 hk1 hk2 hrank

theorem ginvF_doRelease {cmds : List (Nat × GCmd)} {st : GState} {e : GEv}
    {rest : List GEv} (hB : GInvB st) (hF : GInvF cmds st)
    (hex : extractMinBy evRank st.pending = some (e, rest))
    (hact : e.act = GAct.ext GCmd.release) :
    GInvF cmds (doRelease { st with pending := rest, now := e.time }) := by
  obtain ⟨hein, hmemP, htle, hnow, hseqne, hsplit⟩ := pop_facts hB hex
  unfold doRelease
  split
  · -- empty queue
    refine ⟨?_, ?_, ?_, ?_, ?_, ?_, ?_, ?_⟩
    · intro y hy c hc; exact hF.extFrom y (hmemP y hy) c hc
    · intro y hy k s hk; exact hF.slpFrom y (hmemP y hy) k s hk
    · exact hF.rluFrom
    · exact hF.chainSorted
    · intro p hp a ha hc; exact hF.chainLe p hp a (hmemP a ha) hc
    · intro p hp a ha k s hk; exact hF.chainLeSlp p hp a (hmemP a ha) k s hk
    · intro a1 h1 k s hk a2 h2 hc2
      exact hF.slpLeExt a1 (hmemP _ h1) k s hk a2 (hmemP _ h2) hc2
    · intro a1 h1 a2 h2 k1 s1 k2 s2 hk1 hk2 hrank
      exact hF.slpPair a1 (hmemP _ h1) a2 (hmemP _ h2) k1 s1 k2 s2 hk1 hk2 hrank
  · rename_i w qrest hq
    have hqe : st.queue = w :: qrest := hq
    split
    · -- grant the head: the chain is unchanged as a list
      have hchain : chainOf { st with pending := rest.filter (fun ev => !(isTimeoutFor w.key ev)), now := e.time, active := max 0 (st.active - 1) + 1, queue := qrest, log := st.log ++ [⟨w.key, w.start, e.time, GOut.grantedFromQueue⟩] } = chainOf st := by
        unfold chainOf qgrantPairs
        rw [hqe]
        simp [List.filter_append]
      refine ⟨?_, ?_, ?_, ?_, ?_, ?_, ?_, ?_⟩
      · intro y hy c hc
        exact hF.extFrom y (hmemP y (List.mem_of_mem_filter hy)) c hc
      · intro y hy k s hk
        exact hF.slpFrom y (hmemP y (List.mem_of_mem_filter hy)) k s hk
      · exact hF.rluFrom
      · rw [hchain]; exact hF.chainSorted
      · intro p hp a ha hc
        rw [hchain] at hp
        exact hF.chainLe p hp a (hmemP a (List.mem_of_mem_filter ha)) hc
      · intro p hp a ha k s hk
        rw [hchain] at hp
        exact hF.chainLeSlp p hp a (hmemP a (List.mem_of_mem_filter ha)) k s hk
      · intro a1 h1 k s hk a2 h2 hc2
        exact hF.slpLeExt a1 (hmemP _ (List.mem_of_mem_filter h1)) k s hk a2
          (hmemP _ (List.mem_of_mem_filter h2)) hc2
      · intro a1 h1 a2 h2 k1 s1 k2 s2 hk1 hk2 hrank
        exact hF.slpPair a1 (hmemP _ (List.mem_of_mem_filter h1)) a2
          (hmemP _ (List.mem_of_mem_filter h2)) k1 s1 k2 s2 hk1 hk2 hrank
    · -- no grant
      refine ⟨?_, ?_, ?_, ?_, ?_, ?_, ?_, ?_⟩
      · intro y hy c hc; exact hF.extFrom y (hmemP y hy) c hc
      · intro y hy k s hk; exact hF.slpFrom y (hmemP y hy) k s hk
      · exact hF.rluFrom
      · exact hF.chainSorted
      · intro p hp a ha hc; exact hF.chainLe p hp a (hmemP a ha) hc
      · intro p hp a ha k s hk; exact hF.chainLeSlp p hp a (hmemP a ha) k s hk
      · intro a1 h1 k s hk a2 h2 hc2
        exact hF.slpLeExt a1 (hmemP _ h1) k s hk a2 (hmemP _ h2) hc2
      · intro a1 h1 a2 h2 k1 s1 k2 s2 hk1 hk2 hrank
        exact hF.slpPair a1 (hmemP _ h1) a2 (hmemP _ h2) k1 s1 k2 s2 hk1 hk2 hrank

theorem ginvF_doTimeout {cmds : List (Nat × GCmd)} {st : GState} {e : GEv}
    {rest : List GEv} {k : Nat} (hB : GInvB st) (hF : GInvF cmds st)
    (hex : extractMinBy evRank st.pending = some (e, rest))
    (hact : e.act = GAct.waiterTimeout k) :
    GInvF cmds (doTimeout { st with pending := rest, now := e.time } k) := by
  obtain ⟨hein, hmemP, htle, hnow, hseqne, hsplit⟩ := pop_facts hB hex
  unfold doTimeout
  split
  · -- waiter not found: nothing changes
    refine ⟨?_, ?_, ?_, ?_, ?_, ?_, ?_, ?_⟩
    · intro y hy c hc; exact hF.extFrom y (hmemP y hy) c hc
    · intro y hy k2 s hk; exact hF.slpFrom y (hmemP y hy) k2 s hk
    · exact hF.rluFrom
    · exact hF.chainSorted
    · intro p hp a ha hc; exact hF.chainLe p hp a (hmemP a ha) hc
    · intro p hp a ha k2 s hk; exact hF.chainLeSlp p hp a (hmemP a ha) k2 s hk
    · intro a1 h1 k2 s hk a2 h2 hc2
      exact hF.slpLeExt a1 (hmemP _ h1) k2 s hk a2 (hmemP _ h2) hc2
    · intro a1 h1 a2 h2 k1 s1 k2 s2 hk1 hk2 hrank
      exact hF.slpPair a1 (hmemP _ h1) a2 (hmemP _ h2) k1 s1 k2 s2 hk1 hk2 hrank
  · rename_i w hfind
    -- removing a middle waiter keeps the chain a sublist of the old one
    have hsub : List.Sublist (chainOf { st with pending := rest, now := e.time, queue := st.queue.eraseP (fun w2 => w2.key == k), log := st.log ++ [⟨w.key, w.start, e.time, GOut.slotTimeout⟩] }) (chainOf st) := by
      unfold chainOf qgrantPairs
      simp only [List.filter_append, List.map_append]
      refine List.Sublist.append ?_ ?_
      · simp
      · exact (List.eraseP_sublist _).map _
    have hmemC : ∀ p ∈ chainOf { st with pending := rest, now := e.time, queue := st.queue.eraseP (fun w2 => w2.key == k), log := st.log ++ [⟨w.key, w.start, e.time, GOut.slotTimeout⟩] }, p ∈ chainOf st :=
      fun p hp => hsub.subset hp
    refine ⟨?_, ?_, ?_, ?_, ?_, ?_, ?_, ?_⟩
    · intro y hy c hc; exact hF.extFrom y (hmemP y hy) c hc
    · intro y hy k2 s hk; exact hF.slpFrom y (hmemP y hy) k2 s hk
    · exact hF.rluFrom
    · exact hF.chainSorted.sublist hsub
    · intro p hp a ha hc; exact hF.chainLe p (hmemC p hp) a (hmemP a ha) hc
    · intro p hp a ha k2 s hk; exact hF.chainLeSlp p (hmemC p hp) a (hmemP a ha) k2 s hk
    · intro a1 h1 k2 s hk a2 h2 hc2
      exact hF.slpLeExt a1 (hmemP _ h1) k2 s hk a2 (hmemP _ h2) hc2
    · intro a1 h1 a2 h2 k1 s1 k2 s2 hk1 hk2 hrank
      exact hF.slpPair a1 (hmemP _ h1) a2 (hmemP _ h2) k1 s1 k2 s2 hk1 hk2 hrank

theorem ginvF_sleeperWake {cmds : List (Nat × GCmd)} {st : GState} {e : GEv}
    {rest : List GEv} {k s : Nat} (hB : GInvB st) (hF : GInvF cmds st)
    (hex : extractMinBy evRank st.pending = some (e, rest))
    (hact : e.act = GAct.sleeperWake k s) :
    GInvF cmds (grantOrQueue { st with pending := rest, now := e.time } k s) := by
  obtain ⟨hein, hmemP, htle, hnow, hseqne, hsplit⟩ := pop_facts hB hex
  have hmin := extractMinBy_min hex
  have hKe : evCallKeys e = [k] := by simp [evCallKeys, hact]
  have hK4 : (k :: (rest.flatMap evCallKeys ++
      (st.queue.map (fun w => w.key) ++ st.log.map (fun en => en.key)))).Nodup := by
    have := keyNd_pop hB.keyNd (extractMinBy_perm hex)
    rwa [hKe] at this
  have hkR : k ∉ rest.flatMap evCallKeys := fun hmem =>
    (List.nodup_cons.mp hK4).1 (List.mem_append_left _ hmem)
  unfold grantOrQueue
  split
  · -- direct grant on wake: entry is `grantedDirect`, the chain is unchanged
    have hchain : chainOf { st with pending := rest, now := e.time, active := st.active + 1, log := st.log ++ [⟨k, s, e.time, GOut.grantedDirect⟩] } = chainOf st := by
      unfold chainOf qgrantPairs
      simp [List.filter_append]
    refine ⟨?_, ?_, ?_, ?_, ?_, ?_, ?_, ?_⟩
    · intro y hy c hc; exact hF.extFrom y (hmemP y hy) c hc
    · intro y hy k2 s2 hk; exact hF.slpFrom y (hmemP y hy) k2 s2 hk
    · exact hF.rluFrom
    · rw [hchain]; exact hF.chainSorted
    · intro p hp a ha hc
      rw [hchain] at hp
      exact hF.chainLe p hp a (hmemP a ha) hc
    · intro p hp a ha k2 s2 hk
      rw [hchain] at hp
      exact hF.chainLeSlp p hp a (hmemP a ha) k2 s2 hk
    · intro a1 h1 k2 s2 hk a2 h2 hc2
      exact hF.slpLeExt a1 (hmemP _ h1) k2 s2 hk a2 (hmemP _ h2) hc2
    · intro a1 h1 a2 h2 k1 s1 k2 s2 hk1 hk2 hrank
      exact hF.slpPair a1 (hmemP _ h1) a2 (hmemP _ h2) k1 s1 k2 s2 hk1 hk2 hrank
  · -- enqueue on wake: the call joins the tail of the chain
    have hchain : chainOf { st with pending := rest ++ [⟨e.time + 120000, st.nextSeq, GAct.waiterTimeout k⟩], now := e.time, queue := st.queue ++ [⟨k, s⟩], nextSeq := st.nextSeq + 1 } = chainOf st ++ [(s, k)] := by
      unfold chainOf qgrantPairs
      simp [List.map_append, List.append_assoc]
    refine ⟨?_, ?_, ?_, ?_, ?_, ?_, ?_, ?_⟩
    · intro y hy c hc
      rcases List.mem_append.mp hy with hy | hy
      · exact hF.extFrom y (hmemP y hy) c hc
      · rw [List.mem_singleton.mp hy] at hc; cases hc
    · intro y hy k2 s2 hk
      rcases List.mem_append.mp hy with hy | hy
      · exact hF.slpFrom y (hmemP y hy) k2 s2 hk
      · rw [List.mem_singleton.mp hy] at hk; cases hk
    · exact hF.rluFrom
    · rw [hchain]
      rw [List.pairwise_append]
      refine ⟨hF.chainSorted, by simp, ?_⟩
      intro p hp q hq
      rw [List.mem_singleton.mp hq]
      rcases hF.chainLeSlp p hp e hein k s hact with h | h
      · exact Or.inl h
      · exact Or.inr ⟨h.1, le_of_lt h.2⟩
    · intro p hp a ha hc
      have ha' : a ∈ rest := by
        rcases List.mem_append.mp ha with h' | h'
        · exact h'
        · rw [List.mem_singleton.mp h'] at hc; cases hc
      rw [hchain] at hp
      rcases List.mem_append.mp hp with hp | hp
      · exact hF.chainLe p hp a (hmemP a ha') hc
      · rw [List.mem_singleton.mp hp]
        exact hF.slpLeExt e hein k s hact a (hmemP a ha') hc
    · intro p hp a ha k2 s2 hk
      have ha' : a ∈ rest := by
        rcases List.mem_append.mp ha with h' | h'
        · exact h'
        · rw [List.mem_singleton.mp h'] at hk; cases hk
      rw [hchain] at hp
      rcases List.mem_append.mp hp with hp | hp
      · exact hF.chainLeSlp p hp a (hmemP a ha') k2 s2 hk
      · rw [List.mem_singleton.mp hp]
        have hpair := hF.slpPair e hein a (hmemP a ha') k s k2 s2 hact hk
          (hmin a ha')
        have hkne : k ≠ k2 := by
          intro hkk
          apply hkR
          refine List.mem_flatMap.mpr ⟨a, ha', ?_⟩
          rw [show evCallKeys a = [k2] from by simp [evCallKeys, hk], hkk]
          exact List.mem_singleton.mpr rfl
        rcases hpair with h | h
        · exact Or.inl h
        · exact Or.inr ⟨h.1, lt_of_le_of_ne h.2 hkne⟩
    · intro a1 h1 k2 s2 hk a2 h2 hc2
      have h1' : a1 ∈ rest := by
        rcases List.mem_append.mp h1 with h' | h'
        · exact h'
        · rw [List.mem_singleton.mp h'] at hk; cases hk
      have h2' : a2 ∈ rest := by
        rcases List.mem_append.mp h2 with h' | h'
        · exact h'
        · rw [List.mem_singleton.mp h'] at hc2; cases hc2
      exact hF.slpLeExt a1 (hmemP _ h1') k2 s2 hk a2 (hmemP _ h2') hc2
    · intro a1 h1 a2 h2 k1 s1 k2 s2 hk1 hk2 hrank
      have h1' : a1 ∈ rest := by
        rcases List.mem_append.mp h1 with h' | h'
        · exact h'
        · rw [List.mem_singleton.mp h'] at hk1; cases hk1
      have h2' : a2 ∈ rest := by
        rcases List.mem_append.mp h2 with h' | h'
        · exact h'
        · rw [List.mem_singleton.mp h'] at hk2; cases hk2
      exact hF.slpPair a1 (hmemP _ h1') a2 (hmemP _ h2') k1 s1 k2 s2 hk1 hk2 hrank

theorem ginvF_doAcquire {cmds : List (Nat × GCmd)} {st : GState} {e : GEv}
    {rest : List GEv} (hH : NoWakeTie cmds) (hB : GInvB st) (hF : GInvF cmds st)
    (hex : extractMinBy evRank st.pending = some (e, rest))
    (hact : e.act = GAct.ext GCmd.acquire) :
    GInvF cmds (doAcquire { st with pending := rest, now := e.time } e.seq) := by
  obtain ⟨hein, hmemP, htle, hnow, hseqne, hsplit⟩ := pop_facts hB hex
  have hmin := extractMinBy_min hex
  have hacq : (e.time, GCmd.acquire) ∈ cmds := hF.extFrom e hein _ hact
  unfold doAcquire
  split
  · -- rate-limited: the call becomes a sleeper keyed by the command event
    rename_i hrl
    have hrl' : e.time < st.rateLimitedUntil := hrl
    obtain hr0 | ⟨u, hu, hue⟩ := hF.rluFrom
    · omega
    refine ⟨?_, ?_, ?_, ?_, ?_, ?_, ?_, ?_⟩
    · intro y hy c hc
      rcases List.mem_append.mp hy with hy | hy
      · exact hF.extFrom y (hmemP y hy) c hc
      · rw [List.mem_singleton.mp hy] at hc; cases hc
    · intro y hy k2 s2 hk
      rcases List.mem_append.mp hy with hy | hy
      · exact hF.slpFrom y (hmemP y hy) k2 s2 hk
      · have hye := List.mem_singleton.mp hy
        subst hye
        exact ⟨u, hu, hue⟩
    · exact hF.rluFrom
    · exact hF.chainSorted
    · intro p hp a ha hc
      rcases List.mem_append.mp ha with ha | ha
      · exact hF.chainLe p hp a (hmemP a ha) hc
      · rw [List.mem_singleton.mp ha] at hc; cases hc
    · intro p hp a ha k2 s2 hk
      rcases List.mem_append.mp ha with ha | ha
      · exact hF.chainLeSlp p hp a (hmemP a ha) k2 s2 hk
      · have hae := List.mem_singleton.mp ha
        rw [hae] at hk
        have hk' : GAct.sleeperWake e.seq e.time = GAct.sleeperWake k2 s2 := hk
        injection hk' with h1 h2
        rw [← h1, ← h2]
        exact hF.chainLe p hp e hein hact
    · intro a1 h1 k2 s2 hk a2 h2 hc2
      have h2' : a2 ∈ rest := by
        rcases List.mem_append.mp h2 with h' | h'
        · exact h'
        · rw [List.mem_singleton.mp h'] at hc2; cases hc2
      rcases List.mem_append.mp h1 with h1 | h1
      · exact hF.slpLeExt a1 (hmemP _ h1) k2 s2 hk a2 (hmemP _ h2') hc2
      · have h1e := List.mem_singleton.mp h1
        rw [h1e] at hk
        have hk' : GAct.sleeperWake e.seq e.time = GAct.sleeperWake k2 s2 := hk
        injection hk' with hh1 hh2
        rw [← hh1, ← hh2]
        have hr := hmin a2 h2'
        have hne := hseqne a2 h2'
        simp only [rankLeb, evRank, Bool.or_eq_true, Bool.and_eq_true,
          decide_eq_true_eq] at hr
        rcases hr with hr | hr
        · exact Or.inl hr
        · exact Or.inr ⟨hr.1, by omega⟩
    · intro a1 h1 a2 h2 k1 s1 k2 s2 hk1 hk2 hrank
      rcases List.mem_append.mp h1 with h1 | h1
      · rcases List.mem_append.mp h2 with h2 | h2
        · exact hF.slpPair a1 (hmemP _ h1) a2 (hmemP _ h2) k1 s1 k2 s2 hk1 hk2 hrank
        · -- a2 is the fresh sleeper: every older sleeper is before it
          have h2e := List.mem_singleton.mp h2
          rw [h2e] at hk2
          have hk2' : GAct.sleeperWake e.seq e.time = GAct.sleeperWake k2 s2 := hk2
          injection hk2' with hh1 hh2
          rw [← hh1, ← hh2]
          rcases hF.slpLeExt a1 (hmemP _ h1) k1 s1 hk1 e hein hact with h | h
          · exact Or.inl h
          · exact Or.inr ⟨h.1, le_of_lt h.2⟩
      · rcases List.mem_append.mp h2 with h2 | h2
        · -- fresh sleeper ranked before an older one: impossible
          exfalso
          have h1e := List.mem_singleton.mp h1
          rw [h1e] at hrank
          obtain ⟨_, _, _, ht2⟩ := hB.slpB a2 (hmemP _ h2) k2 s2 hk2
          have hs2 := hB.seqLt a2 (hmemP _ h2)
          simp only [rankLeb, evRank, Bool.or_eq_true, Bool.and_eq_true,
            decide_eq_true_eq] at hrank
          show False
          rcases hrank with hr | hr
          · omega
          · omega
        · have h1e := List.mem_singleton.mp h1
          have h2e := List.mem_singleton.mp h2
          rw [h1e] at hk1
          rw [h2e] at hk2
          have hk1' : GAct.sleeperWake e.seq e.time = GAct.sleeperWake k1 s1 := hk1
          have hk2' : GAct.sleeperWake e.seq e.time = GAct.sleeperWake k2 s2 := hk2
          injection hk1' with ha1 ha2
          injection hk2' with hb1 hb2
          rw [← ha1, ← ha2, ← hb1, ← hb2]
          exact Or.inr ⟨rfl, le_refl _⟩
  · -- past the cooldown: no sleeping call can still be pending (tie excluded)
    rename_i hnrl
    have hge : st.rateLimitedUntil ≤ e.time := Nat.le_of_not_lt (fun hh => hnrl hh)
    have hNoSlp : ∀ y ∈ rest, ∀ k2 s2, ¬ y.act = GAct.sleeperWake k2 s2 := by
      intro y hy k2 s2 hk
      obtain ⟨_, _, _, h4⟩ := hB.slpB y (hmemP y hy) k2 s2 hk
      have h5 := htle y hy
      obtain ⟨u, hu, hue⟩ := hF.slpFrom y (hmemP y hy) k2 s2 hk
      exact hH e.time u hacq hu (by omega)
    unfold grantOrQueue
    split
    · -- direct grant: entry filtered out of the chain
      have hchain : chainOf { st with pending := rest, now := e.time, active := st.active + 1, log := st.log ++ [⟨e.seq, e.time, e.time, GOut.grantedDirect⟩] } = chainOf st := by
        unfold chainOf qgrantPairs
        simp [List.filter_append]
      refine ⟨?_, ?_, ?_, ?_, ?_, ?_, ?_, ?_⟩
      · intro y hy c hc; exact hF.extFrom y (hmemP y hy) c hc
      · intro y hy k2 s2 hk; exact hF.slpFrom y (hmemP y hy) k2 s2 hk
      · exact hF.rluFrom
      · rw [hchain]; exact hF.chainSorted
      · intro p hp a ha hc
        rw [hchain] at hp
        exact hF.chainLe p hp a (hmemP a ha) hc
      · intro p hp a ha k2 s2 hk
        exact absurd hk (hNoSlp a ha k2 s2)
      · intro a1 h1 k2 s2 hk a2 h2 hc2
        exact absurd hk (hNoSlp a1 h1 k2 s2)
      · intro a1 h1 a2 h2 k1 s1 k2 s2 hk1 hk2 hrank
        exact absurd hk1 (hNoSlp a1 h1 k1 s1)
    · -- enqueue: the call joins the tail of the chain
      have hchain : chainOf { st with pending := rest ++ [⟨e.time + 120000, st.nextSeq, GAct.waiterTimeout e.seq⟩], now := e.time, queue := st.queue ++ [⟨e.seq, e.time⟩], nextSeq := st.nextSeq + 1 } = chainOf st ++ [(e.time, e.seq)] := by
        unfold chainOf qgrantPairs
        simp [List.map_append, List.append_assoc]
      have hmemrest : ∀ a ∈ ((rest ++ [⟨e.time + 120000, st.nextSeq, GAct.waiterTimeout e.seq⟩] : List GEv)), (∀ c, a.act = GAct.ext c → a ∈ rest) ∧ (∀ k2 s2, a.act = GAct.sleeperWake k2 s2 → a ∈ rest) := by
        intro a ha
        constructor
        · intro c hc
          rcases List.mem_append.mp ha with h' | h'
          · exact h'
          · rw [List.mem_singleton.mp h'] at hc; cases hc
        · intro k2 s2 hk
          rcases List.mem_append.mp ha with h' | h'
          · exact h'
          · rw [List.mem_singleton.mp h'] at hk; cases hk
      refine ⟨?_, ?_, ?_, ?_, ?_, ?_, ?_, ?_⟩
      · intro y hy c hc
        exact hF.extFrom y (hmemP y ((hmemrest y hy).1 c hc)) c hc
      · intro y hy k2 s2 hk
        exact hF.slpFrom y (hmemP y ((hmemrest y hy).2 k2 s2 hk)) k2 s2 hk
      · exact hF.rluFrom
      · rw [hchain]
        rw [List.pairwise_append]
        refine ⟨hF.chainSorted, by simp, ?_⟩
        intro p hp q hq
        rw [List.mem_singleton.mp hq]
        rcases hF.chainLe p hp e hein hact with h | h
        · exact Or.inl h
        · exact Or.inr ⟨h.1, le_of_lt h.2⟩
      · intro p hp a ha hc
        have ha' : a ∈ rest := (hmemrest a ha).1 _ hc
        rw [hchain] at hp
        rcases List.mem_append.mp hp with hp | hp
        · exact hF.chainLe p hp a (hmemP a ha') hc
        · rw [List.mem_singleton.mp hp]
          have hr := hmin a ha'
          have hne := hseqne a ha'
          simp only [rankLeb, evRank, Bool.or_eq_true, Bool.and_eq_true,
            decide_eq_true_eq] at hr
          rcases hr with hr | hr
          · exact Or.inl hr
          · exact Or.inr ⟨hr.1, by omega⟩
      · intro p hp a ha k2 s2 hk
        exact absurd hk (hNoSlp a ((hmemrest a ha).2 k2 s2 hk) k2 s2)
      · intro a1 h1 k2 s2 hk a2 h2 hc2
        exact absurd hk (hNoSlp a1 ((hmemrest a1 h1).2 k2 s2 hk) k2 s2)
      · intro a1 h1 a2 h2 k1 s1 k2 s2 hk1 hk2 hrank
        exact absurd hk1 (hNoSlp a1 ((hmemrest a1 h1).2 k1 s1 hk1) k1 s1)

theorem ginvF_gcmStep {cmds : List (Nat × GCmd)} {st : GState}
    (hH : NoWakeTie cmds) (hB : GInvB st) (hF : GInvF cmds st) :
    GInvF cmds (gcmStep st) := by
  unfold gcmStep
  split
  · exact hF
  · rename_i p e rest heq
    split
    · rename_i hact
      exact ginvF_doAcquire hH hB hF heq hact
    · rename_i hact
      exact ginvF_doRelease hB hF heq hact
    · rename_i hact
      exact ginvF_doSetRateLimited hB hF heq hact
    · rename_i k s hact
      exact ginvF_sleeperWake hB hF heq hact
    · rename_i k hact
      exact ginvF_doTimeout hB hF heq hact

theorem ginv_gcmRun (fuel : Nat) {cmds : List (Nat × GCmd)} {st : GState}
    (hH : NoWakeTie cmds) (hB : GInvB st) (hF : GInvF cmds st) :
    GInvB (gcmRun fuel st) ∧ GInvF cmds (gcmRun fuel st) := by
  induction fuel generalizing st with
  | zero => exact ⟨hB, hF⟩
  | succ n ih =>
      unfold gcmRun
      split
      · exact ⟨hB, hF⟩
      · exact ih (ginvB_gcmStep hB) (ginvF_gcmStep hH hB hF)

/-- C4.  FIFO fairness of the global slot wait list: waiters blocked in
`acquireSlot` are granted by `releaseSlot` (which grants one waiter per
release) in exactly the order their calls arrived — the granted list is
sorted by (call instant, command order) — and every `acquireSlot` call
settles at most once (the log keys are duplicate-free).  The hypothesis
excludes the one genuine scheduling race: an `acquireSlot` call arriving
in exactly the millisecond an earlier sleeping call's rate-limit cooldown
expires, whose order Node does not determine. -/
theorem fifo_queue_grants (cmds : List (Nat × GCmd)) (fuel : Nat)
    (hH : NoWakeTie cmds) :
    List.Pairwise pairLe (qgrantPairs (gcmRun fuel (gcmInit cmds)).log) ∧
      (((gcmRun fuel (gcmInit cmds)).log).map (fun en => en.key)).Nodup := by
  obtain ⟨hB, hF⟩ := ginv_gcmRun fuel hH (ginvB_init cmds) (ginvF_init cmds)
  constructor
  · have hs := hF.chainSorted
    unfold chainOf at hs
    exact hs.sublist (List.sublist_append_left _ _)
  · have h := hB.keyNd
    unfold keyList at h
    exact (List.nodup_append.mp h).2.1

/-- Witness for C4 on a concrete trace: three `acquireSlot` calls at
t = 0, 1, 2 (the third queues behind the first two) and two `releaseSlot`
calls; the queue grants come out sorted by arrival and no call settles
twice. -/
theorem fifo_queue_grants_witness :
    List.Pairwise pairLe (qgrantPairs (gcmRun 10 (gcmInit
        [(0, GCmd.acquire), (1, GCmd.acquire), (2, GCmd.acquire),
          (3, GCmd.acquire), (5, GCmd.release), (6, GCmd.release)])).log) ∧
      (((gcmRun 10 (gcmInit
        [(0, GCmd.acquire), (1, GCmd.acquire), (2, GCmd.acquire),
          (3, GCmd.acquire), (5, GCmd.release), (6, GCmd.release)])).log).map
        (fun en => en.key)).Nodup :=
  fifo_queue_grants
    [(0, GCmd.acquire), (1, GCmd.acquire), (2, GCmd.acquire),
      (3, GCmd.acquire), (5, GCmd.release), (6, GCmd.release)] 10
    (by intro t u ht hu; simp at hu)

/-! ## `ConnectionPool` health and reconnection (`connectionPool.ts`
lines 133-588)

The pool's control state is embedded as a record; the network is an
oracle: `slotRes` is the outcome of `globalConnectionManager.acquireSlot()`
inside `connect()`, `co` the outcome of `client.connect()` raced against
its timeout, `clientConnected` what `client.isConnected()` reports, and
`wr` the outcome of `waitForReconnect()` when another connect is already
in flight.  Timers (backoff, cooldown waits) only delay, so they are not
part of the state the claims are about. -/

/-- `ConnectionHealth` (line 8); `rateLimited` is the source's
`rate-limited`. -/
inductive ConnectionHealth
  | healthy
  | degraded
  | disconnected
  | failed
  | rateLimited
  deriving DecidableEq

/-- Pool control state: `client` is whether `this.client` is non-null. -/
structure PoolState where
  health : ConnectionHealth
  reconnectAttempts : Nat
  client : Bool
  hasSlot : Bool
  isReconnecting : Bool
  deriving DecidableEq

/-- The tail of `connect()` after the slot is settled (lines 245-289):
create the client, connect with timeout; on success become `healthy` and
reset the attempt counter; on a `530 ... maximum` failure become
`rate-limited` and release the slot; on any other failure become `failed`
(the slot is kept).  The `finally` clears `isReconnecting` on every path. -/
def connectBody (st : PoolState) (co : Except String Unit) : Except String Unit × PoolState :=
  match co with
  | .ok _ =>
      (.ok (), { st with health := ConnectionHealth.healthy, reconnectAttempts := 0, client := true, isReconnecting := false })
  | .error msg =>
      if isRateLimitError msg then
        (.error msg, { st with health := ConnectionHealth.rateLimited, client := false, hasSlot := false, isReconnecting := false })
      else
        (.error msg, { st with health := ConnectionHealth.failed, client := false, isReconnecting := false })

/-- `connect()` (lines 220-290): dispose any stale client (releasing its
slot), acquire a global slot if none is held, then `connectBody`.  A slot
acquisition failure lands in the same catch (its message has no `530`), so
the pool becomes `failed`. -/
def connectP (st : PoolState) (slotRes co : Except String Unit) : Except String Unit × PoolState :=
  let st1 := if st.client then { st with client := false, hasSlot := false } else st
  if st1.hasSlot then connectBody st1 co
  else
    match slotRes with
    | .ok _ => connectBody { st1 with hasSlot := true } co
    | .error msg =>
        (.error msg, { st1 with health := ConnectionHealth.failed, client := false, isReconnecting := false })

/-- `getConnection()` (lines 189-215): return the live client when
`healthy` and actually connected; if the client self-reports dead, drop it
(releasing the slot) and reconnect; if a connect is already in flight,
wait for it (`wr`); otherwise start a fresh `connect()`. -/
def getConnection (st : PoolState) (clientConnected : Bool)
    (wr slotRes co : Except String Unit) : Except String Unit × PoolState :=
  if st.client ∧ st.health = ConnectionHealth.healthy then
    if clientConnected then (.ok (), st)
    else
      if st.isReconnecting then
        (wr, { st with health := ConnectionHealth.disconnected, client := false, hasSlot := false })
      else
        connectP { st with health := ConnectionHealth.disconnected, client := false, hasSlot := false } slotRes co
  else if st.isReconnecting then (wr, st)
  else connectP st slotRes co

/-- `reconnect()` (lines 315-344): during a rate-limit cooldown, wait it
out and reset the attempt counter; then fail permanently once 5 attempts
are exhausted, else count the attempt, mark `degraded`, back off and
`connect()`. -/
def reconnectP (st : PoolState) (rl : Bool) (slotRes co : Except String Unit) :
    Except String Unit × PoolState :=
  let st0 := if rl then { st with reconnectAttempts := 0 } else st
  if 5 ≤ st0.reconnectAttempts then
    (.error "Max reconnection attempts (5) reached", { st0 with health := ConnectionHealth.failed })
  else
    connectP { st0 with reconnectAttempts := st0.reconnectAttempts + 1, health := ConnectionHealth.degraded } slotRes co

/-- `forceReconnect()` (lines 583-587): reset the attempt counter, mark
`disconnected`, and connect. -/
def forceReconnectP (st : PoolState) (slotRes co : Except String Unit) :
    Except String Unit × PoolState :=
  connectP { st with reconnectAttempts := 0, health := ConnectionHealth.disconnected } slotRes co

/-- `isConnected()` (lines 552-554). -/
def poolIsConnected (st : PoolState) : Bool :=
  st.client && st.health == ConnectionHealth.healthy

/-- Counterexample to C5 as stated: a pool that exhausted its 5 reconnect
attempts (health `failed`, no client, slot still held, no connect in
flight) is brought back to `healthy` by an ordinary `getConnection()` call
whose underlying connect succeeds — no `forceReconnect` involved, because
`getConnection` calls `connect()` directly and `connect()` never consults
the attempt counter. -/
theorem getConnection_recovers_failed_pool :
    (getConnection ⟨ConnectionHealth.failed, 5, false, true, false⟩ false
        (.error "Reconnection failed") (.ok ()) (.ok ())).2.health =
      ConnectionHealth.healthy ∧
    (getConnection ⟨ConnectionHealth.failed, 5, false, true, false⟩ false
        (.error "Reconnection failed") (.ok ()) (.ok ())).2.reconnectAttempts = 0 := by
  constructor <;> rfl

/-- C5 (amended).  After the 5 reconnection attempts are exhausted the
pool is `failed` and every further `reconnect()` call made outside a
rate-limit cooldown rejects with `MaxReconnectAttemptsExceeded` without
touching the network; `forceReconnect()` resets the attempt counter and
reconnects.  The `failed` state is however not terminal for ordinary
calls: `getConnection()` on a failed pool (no connect in flight) starts a
fresh `connect()`, which ignores the attempt counter and returns the pool
to `healthy` (with the counter reset) when the connection succeeds. -/
theorem failed_pool_reconnect_and_recovery :
    (∀ st : PoolState, 5 ≤ st.reconnectAttempts → ∀ slotRes co : Except String Unit,
        (reconnectP st false slotRes co).1 = .error "Max reconnection attempts (5) reached" ∧
        (reconnectP st false slotRes co).2.health = ConnectionHealth.failed) ∧
    (∀ st : PoolState, st.health = ConnectionHealth.failed → st.client = false →
        st.isReconnecting = false → ∀ cc : Bool, ∀ wr : Except String Unit,
        (getConnection st cc wr (.ok ()) (.ok ())).2.health = ConnectionHealth.healthy ∧
        (getConnection st cc wr (.ok ()) (.ok ())).2.reconnectAttempts = 0) ∧
    (∀ st : PoolState,
        (forceReconnectP st (.ok ()) (.ok ())).2.health = ConnectionHealth.healthy ∧
        (forceReconnectP st (.ok ()) (.ok ())).2.reconnectAttempts = 0) := by
  refine ⟨?_, ?_, ?_⟩
  · intro st h slotRes co
    simp only [reconnectP, Bool.false_eq_true, if_false, if_pos h]
    trivial
  · intro st hh hc hr cc wr
    cases hs : st.hasSlot with
    | true => simp [getConnection, connectP, connectBody, hc, hr, hs]
    | false => simp [getConnection, connectP, connectBody, hc, hr, hs]
  · intro st
    cases hc : st.client with
    | true => simp [forceReconnectP, connectP, connectBody, hc]
    | false =>
        cases hs : st.hasSlot with
        | true => simp [forceReconnectP, connectP, connectBody, hc, hs]
        | false => simp [forceReconnectP, connectP, connectBody, hc, hs]

/-- Witness for C5 (amended) at a concrete failed pool. -/
theorem failed_pool_reconnect_and_recovery_witness :
    ((reconnectP ⟨ConnectionHealth.failed, 5, false, true, false⟩ false (.ok ()) (.ok ())).1 =
        .error "Max reconnection attempts (5) reached" ∧
      (reconnectP ⟨ConnectionHealth.failed, 5, false, true, false⟩ false (.ok ()) (.ok ())).2.health =
        ConnectionHealth.failed) ∧
    ((getConnection ⟨ConnectionHealth.failed, 5, false, true, false⟩ false (.error "x") (.ok ()) (.ok ())).2.health =
        ConnectionHealth.healthy ∧
      (getConnection ⟨ConnectionHealth.failed, 5, false, true, false⟩ false (.error "x") (.ok ()) (.ok ())).2.reconnectAttempts = 0) :=
  ⟨failed_pool_reconnect_and_recovery.1 ⟨ConnectionHealth.failed, 5, false, true, false⟩
      (by decide) (.ok ()) (.ok ()),
    failed_pool_reconnect_and_recovery.2.1 ⟨ConnectionHealth.failed, 5, false, true, false⟩
      rfl rfl rfl false (.error "x")⟩

/-! ## The operation queue (`src/core/operationQueue.ts`)

`QOp` carries the bookkeeping fields of a `QueuedOperation` (lines 4-14);
the `operation`, `resolve` and `reject` closures are left to oracles. -/

/-- Bookkeeping fields of a `QueuedOperation`; `id` records arrival
order (the `operationCounter`). -/
structure QOp where
  id : Nat
  priority : Int
  addedAt : Nat
  timeout : Nat
  retries : Nat
  maxRetries : Nat
  deriving DecidableEq

/-- `enqueue` lines 72-78: `findIndex(op => op.priority < new.priority)`;
`push` when it returns `-1`, else `splice(insertIndex, 0, new)`. -/
def insertByPriority : List QOp → QOp → List QOp
  | [], newOp => [newOp]
  | op :: rest, newOp =>
      if op.priority < newOp.priority then newOp :: op :: rest
      else op :: insertByPriority rest newOp

theorem insertByPriority_mem {q : List QOp} {newOp x : QOp}
    (h : x ∈ insertByPriority q newOp) : x = newOp ∨ x ∈ q := by
  induction q with
  | nil =>
      simp only [insertByPriority, List.mem_singleton] at h
      exact Or.inl h
  | cons op rest ih =>
      simp only [insertByPriority] at h
      by_cases hp : op.priority < newOp.priority
      · rw [if_pos hp] at h
        rcases List.mem_cons.mp h with h1 | h1
        · exact Or.inl h1
        · exact Or.inr h1
      · rw [if_neg hp] at h
        rcases List.mem_cons.mp h with h1 | h1
        · exact Or.inr (h1 ▸ List.mem_cons_self op rest)
        · rcases ih h1 with h2 | h2
          · exact Or.inl h2
          · exact Or.inr (List.mem_cons_of_mem op h2)

theorem insertByPriority_eq_takeWhile (q : List QOp) (newOp : QOp) :
    insertByPriority q newOp =
      q.takeWhile (fun o => !(decide (o.priority < newOp.priority))) ++
        newOp :: q.dropWhile (fun o => !(decide (o.priority < newOp.priority))) := by
  induction q with
  | nil => rfl
  | cons op rest ih =>
      simp only [insertByPriority, List.takeWhile_cons, List.dropWhile_cons]
      by_cases hp : op.priority < newOp.priority
      · rw [if_pos hp]
        simp [hp]
      · rw [if_neg hp]
        simp [hp, ih]

theorem insertByPriority_sorted {q : List QOp} {newOp : QOp}
    (h : q.Pairwise (fun a b => b.priority ≤ a.priority)) :
    (insertByPriority q newOp).Pairwise (fun a b => b.priority ≤ a.priority) := by
  induction q with
  | nil => simp [insertByPriority]
  | cons op rest ih =>
      rcases List.pairwise_cons.mp h with ⟨hop, hrest⟩
      simp only [insertByPriority]
      by_cases hp : op.priority < newOp.priority
      · rw [if_pos hp]
        refine List.pairwise_cons.mpr ⟨?_, h⟩
        intro y hy
        rcases List.mem_cons.mp hy with h1 | h1
        · rw [h1]
          exact le_of_lt hp
        · exact le_trans (hop y h1) (le_of_lt hp)
      · rw [if_neg hp]
        refine List.pairwise_cons.mpr ⟨?_, ih hrest⟩
        intro y hy
        rcases insertByPriority_mem hy with h1 | h1
        · rw [h1]
          exact le_of_not_lt hp
        · exact hop y h1

/-- The spec example: four operations enqueued with priorities
`[0, 1, 0, 1]`, ids `0, 1, 2, 3` in arrival order. -/
def c8ops : List QOp :=
  [⟨0, 0, 0, 30000, 0, 3⟩, ⟨1, 1, 0, 30000, 0, 3⟩,
   ⟨2, 0, 0, 30000, 0, 3⟩, ⟨3, 1, 0, 30000, 0, 3⟩]

/-- C8.  `enqueue` places each new operation exactly after the longest
prefix of operations with priority greater than or equal to its own
(higher priority first, stable arrival order among equal priorities),
hence it preserves descending-priority order of the queue; and the four
operations enqueued with priorities `[0, 1, 0, 1]` in arrival order
`0, 1, 2, 3` end up in queue (= head-first execution) order
`[1, 3, 0, 2]`. -/
theorem enqueue_priority_stable_order :
    (∀ (q : List QOp) (newOp : QOp),
        insertByPriority q newOp =
          q.takeWhile (fun o => !(decide (o.priority < newOp.priority))) ++
            newOp :: q.dropWhile (fun o => !(decide (o.priority < newOp.priority)))) ∧
    (∀ (q : List QOp) (newOp : QOp),
        q.Pairwise (fun a b => b.priority ≤ a.priority) →
        (insertByPriority q newOp).Pairwise (fun a b => b.priority ≤ a.priority)) ∧
    (List.foldl insertByPriority [] c8ops).map QOp.id = [1, 3, 0, 2] := by
  refine ⟨insertByPriority_eq_takeWhile, fun q newOp h => insertByPriority_sorted h, ?_⟩
  decide

/-- Witness for C8: the sortedness conjunct applied to a concrete
one-element queue. -/
theorem enqueue_priority_stable_order_witness :
    (([⟨0, 5, 0, 30000, 0, 3⟩] : List QOp)).Pairwise (fun a b => b.priority ≤ a.priority) ∧
    (insertByPriority [⟨0, 5, 0, 30000, 0, 3⟩] ⟨1, 2, 0, 30000, 0, 3⟩).Pairwise
      (fun a b => b.priority ≤ a.priority) :=
  ⟨by simp, enqueue_priority_stable_order.2.1 [⟨0, 5, 0, 30000, 0, 3⟩]
    ⟨1, 2, 0, 30000, 0, 3⟩ (by simp)⟩

/-- Result of one invocation of an operation work function raced against
`withTimeout`: success, or rejection with an error message. -/
inductive WorkRes where
  | ok
  | err (msg : String)
  deriving DecidableEq

/-- How a queued operation finally settles. -/
inductive OpFate where
  | resolved
  | rejectedErr
  | expiredInQueue
  deriving DecidableEq

/-- Lifecycle of one operation through the sequential queue
(`processQueue` lines 105-119 and `executeOperation` lines 128-165).
At dequeue time `t` the head-expiry check
`waitTime > operation.timeout * 2` (lines 111-116) rejects with
`Operation expired in queue` without invoking the work; otherwise the
work runs, `work k` giving the result and settle duration of attempt
`k`.  A retryable failure with `retries < maxRetries` increments
`retries` and re-queues the same record - same `addedAt` - at the queue
front after a `1000 * retries` ms delay (lines 144-152), so the next
dequeue is at least that much later (`slack k` is any extra wait while
other heads are processed first); other failures reject.  Returns
`(number of work invocations, fate)`, `none` on fuel exhaustion. -/
def runOp (work : Nat → WorkRes × Nat) (slack : Nat → Nat) :
    Nat → QOp → Nat → Nat → Option (Nat × OpFate)
  | 0, _, _, _ => none
  | fuel + 1, op, t, k =>
    if t - op.addedAt > op.timeout * 2 then some (0, OpFate.expiredInQueue)
    else
      match work k with
      | (WorkRes.ok, _) => some (1, OpFate.resolved)
      | (WorkRes.err msg, dur) =>
          if op.retries < op.maxRetries ∧ isRetryableError msg = true then
            match runOp work slack fuel { op with retries := op.retries + 1 }
                (t + dur + 1000 * (op.retries + 1) + slack k) (k + 1) with
            | none => none
            | some (n, fate) => some (n + 1, fate)
          else some (1, OpFate.rejectedErr)

theorem runOp_expired (work : Nat → WorkRes × Nat) (slack : Nat → Nat)
    (fuel : Nat) (op : QOp) (t k : Nat)
    (h : t - op.addedAt > op.timeout * 2) :
    runOp work slack (fuel + 1) op t k = some (0, OpFate.expiredInQueue) := by
  simp [runOp, h]

/-- C7.  An operation that reaches the head of the queue having waited
unstarted for longer than twice its own timeout is rejected with
`Operation expired in queue` and its work is invoked zero times,
whatever the work would have done; in particular an operation with
`timeout = 100` ms dequeued 201 ms after it was added is rejected
unexecuted. -/
theorem queued_op_expiry :
    (∀ (work : Nat → WorkRes × Nat) (slack : Nat → Nat) (fuel : Nat)
        (op : QOp) (t k : Nat),
        t - op.addedAt > op.timeout * 2 →
        runOp work slack (fuel + 1) op t k = some (0, OpFate.expiredInQueue)) ∧
    (∀ (work : Nat → WorkRes × Nat) (slack : Nat → Nat),
        runOp work slack 1 ⟨1, 0, 0, 100, 0, 3⟩ 201 0 =
          some (0, OpFate.expiredInQueue)) :=
  ⟨fun work slack fuel op t k h => runOp_expired work slack fuel op t k h,
   fun work slack => runOp_expired work slack 0 ⟨1, 0, 0, 100, 0, 3⟩ 201 0 (by decide)⟩

/-- Witness for C7 at a concrete work oracle. -/
theorem queued_op_expiry_witness :
    (201 : Nat) - 0 > 100 * 2 ∧
    runOp (fun _ => (WorkRes.ok, 0)) (fun _ => 0) 3 ⟨1, 0, 0, 100, 0, 3⟩ 201 0 =
      some (0, OpFate.expiredInQueue) :=
  ⟨by decide, queued_op_expiry.1 (fun _ => (WorkRes.ok, 0)) (fun _ => 0) 2
    ⟨1, 0, 0, 100, 0, 3⟩ 201 0 (by decide)⟩

/-- C10 counterexample at the claimed boundary `timeout = 500` ms ("at
most 500 ms"): an operation whose work fails instantly with the
retryable message `timeout` is re-queued and dequeued again exactly
`1000` ms after it was added; the expiry check `1000 > 2 * 500` is false,
so the work is executed a second time (2 invocations). -/
theorem retried_op_runs_twice_at_timeout_500 :
    runOp (fun _ => (WorkRes.err "timeout", 0)) (fun _ => 0) 5
        ⟨1, 0, 0, 500, 0, 3⟩ 0 0 = some (2, OpFate.expiredInQueue) := by
  decide

/-- C10 (amended).  A retried operation keeps its original `addedAt`
and is re-queued at the front after a `1000 * retries` ms delay, so when
`2 * timeout < 1000` ms (timeout strictly below 500 ms) any operation
whose work fails with a retryable error is rejected as expired in queue
at its next dequeue: the work is invoked at most once and the operation
settles as expired. -/
theorem retry_expires_below_500ms :
    ∀ (work : Nat → WorkRes × Nat) (slack : Nat → Nat) (fuel : Nat)
      (op : QOp) (t k : Nat),
      op.addedAt ≤ t →
      op.timeout * 2 < 1000 →
      (∃ msg dur, work k = (WorkRes.err msg, dur) ∧ isRetryableError msg = true) →
      op.retries < op.maxRetries →
      ∃ n, n ≤ 1 ∧ runOp work slack (fuel + 2) op t k = some (n, OpFate.expiredInQueue) := by
  intro work slack fuel op t k hat htm hex hret
  obtain ⟨msg, dur, hw, hr⟩ := hex
  by_cases hexp : t - op.addedAt > op.timeout * 2
  · exact ⟨0, Nat.zero_le 1, runOp_expired work slack (fuel + 1) op t k hexp⟩
  · refine ⟨1, le_refl 1, ?_⟩
    show runOp work slack (fuel + 1 + 1) op t k = some (1, OpFate.expiredInQueue)
    have hstep : runOp work slack (fuel + 1 + 1) op t k =
        match runOp work slack (fuel + 1) { op with retries := op.retries + 1 } (t + dur + 1000 * (op.retries + 1) + slack k) (k + 1) with
        | none => none
        | some (n, fate) => some (n + 1, fate) := by
      conv_lhs => rw [runOp]
      rw [if_neg hexp, hw]
      exact if_pos ⟨hret, hr⟩
    rw [hstep]
    have hinner : t + dur + 1000 * (op.retries + 1) + slack k -
        ({ op with retries := op.retries + 1 } : QOp).addedAt >
        ({ op with retries := op.retries + 1 } : QOp).timeout * 2 := by
      show t + dur + 1000 * (op.retries + 1) + slack k - op.addedAt > op.timeout * 2
      omega
    rw [runOp_expired work slack fuel _ _ (k + 1) hinner]

/-- Witness for C10 (amended) at `timeout = 499` ms. -/
theorem retry_expires_below_500ms_witness :
    ∃ n, n ≤ 1 ∧ runOp (fun _ => (WorkRes.err "timeout", 0)) (fun _ => 0) 2
      ⟨1, 0, 0, 499, 0, 3⟩ 0 0 = some (n, OpFate.expiredInQueue) :=
  retry_expires_below_500ms (fun _ => (WorkRes.err "timeout", 0)) (fun _ => 0) 0
    ⟨1, 0, 0, 499, 0, 3⟩ 0 0 (by decide) (by decide)
    ⟨"timeout", 0, rfl, by decide⟩ (by decide)

/-! ## FileWatcher debouncing (`src/core/fileWatcher.ts`) -/

/-- `FileChangeType` (`created | changed | deleted`). -/
inductive FileChangeType where
  | created
  | changed
  | deleted
  deriving DecidableEq

/-- A pending debounce timer: the `setTimeout` created at
`handleFileChange` lines 226-244, keyed by `uri.fsPath`, firing
`debounceMs = 500` ms after creation and capturing the event type.
`seq` is creation order (Node runs equal-deadline timers in creation
order).  The `debounceTimers` map and the set of pending timers stay in
sync - the callback first deletes its own entry (line 227) and
`handleFileChange` cancels exactly the timer it replaces (lines
220-224) - so one list models both. -/
structure WTimer where
  key : String
  typ : FileChangeType
  fireAt : Nat
  seq : Nat
  deriving DecidableEq

/-- Node ordering of debounce timers: deadline, then creation order. -/
def wtRank (t : WTimer) : Nat × Nat := (t.fireAt, t.seq)

/-- Watcher state: pending debounce timers, the timer-creation counter,
`pendingOperations`, the operations handed to `operationQueue.enqueue`
(path key and event type, in order), the ignore predicate extension and
`activeUploads` (both held fixed: no upload or queue completion is
modelled). -/
structure WState where
  tmrs : List WTimer
  nextSeq : Nat
  pend : List String
  queued : List (String × FileChangeType)
  ign : List String
  ups : List String
  deriving DecidableEq

/-- Body of the debounce timer (lines 226-242), run with the timer
already removed from `tmrs` (its map entry deleted): skip if the path is
already queued or processing (`pendingOperations`, lines 230-233) or
being uploaded (lines 236-239), else `queueFileChange` (lines 250-283:
add the path to `pendingOperations` and enqueue the operation). -/
def wFire (t : WTimer) (st : WState) : WState :=
  if st.pend.contains t.key then st
  else if st.ups.contains t.key then st
  else { st with pend := t.key :: st.pend, queued := st.queued ++ [(t.key, t.typ)] }

/-- Fire every pending timer due at or before `now`, in Node order. -/
def wFireDueGo : Nat → Nat → WState → WState
  | 0, _, st => st
  | fuel + 1, now, st =>
    match extractMinBy wtRank st.tmrs with
    | none => st
    | some (t, rest) =>
        if t.fireAt ≤ now then wFireDueGo fuel now (wFire t { st with tmrs := rest })
        else st

def wFireDue (now : Nat) (st : WState) : WState := wFireDueGo st.tmrs.length now st

/-- `handleFileChange` (lines 199-245) at time `now`: return early for
ignored paths (lines 203-206) and paths with an `uploadFile` upload in
flight (lines 213-216); otherwise cancel the existing debounce timer for
the path if there is one (`clearTimeout`, lines 220-224) and start a
fresh 500 ms timer for this event''s type (lines 226-244). -/
def handleFileChange (now : Nat) (key : String) (typ : FileChangeType)
    (st : WState) : WState :=
  if st.ign.contains key then st
  else if st.ups.contains key then st
  else
    { st with
        tmrs := (st.tmrs.eraseP (fun t => t.key == key)) ++ [⟨key, typ, now + 500, st.nextSeq⟩],
        nextSeq := st.nextSeq + 1 }

/-- Run a timestamped list of file-system events: at each event time the
due timers fire first, then the event is handled. -/
def wRun : List (Nat × String × FileChangeType) → WState → WState
  | [], st => st
  | (t, k, ty) :: rest, st => wRun rest (handleFileChange t k ty (wFireDue t st))

/-- Let every remaining timer fire (time passes with no further events). -/
def wDrainGo : Nat → WState → WState
  | 0, st => st
  | fuel + 1, st =>
    match extractMinBy wtRank st.tmrs with
    | none => st
    | some (t, rest) => wDrainGo fuel (wFire t { st with tmrs := rest })

def wDrain (st : WState) : WState := wDrainGo st.tmrs.length st

/-- Initial watcher state. -/
def winit (ign ups : List String) : WState := ⟨[], 0, [], [], ign, ups⟩

theorem wFire_tmrs (t : WTimer) (st : WState) : (wFire t st).tmrs = st.tmrs := by
  unfold wFire
  split
  · rfl
  · split <;> rfl

theorem wFireDueGo_nodup : ∀ (fuel now : Nat) (st : WState),
    (st.tmrs.map WTimer.key).Nodup →
    ((wFireDueGo fuel now st).tmrs.map WTimer.key).Nodup := by
  intro fuel
  induction fuel with
  | zero => intro now st h; exact h
  | succ n ih =>
      intro now st h
      simp only [wFireDueGo]
      rcases hx : extractMinBy wtRank st.tmrs with _ | ⟨t, rest⟩
      · exact h
      · have hperm : (st.tmrs.map WTimer.key).Perm (t.key :: rest.map WTimer.key) :=
          (extractMinBy_perm hx).map WTimer.key
        have hrest : (rest.map WTimer.key).Nodup :=
          (List.nodup_cons.mp (hperm.nodup_iff.mp h)).2
        show (List.map WTimer.key (if t.fireAt ≤ now then wFireDueGo n now (wFire t { st with tmrs := rest }) else st).tmrs).Nodup
        by_cases hle : t.fireAt ≤ now
        · rw [if_pos hle]
          apply ih
          rw [wFire_tmrs]
          exact hrest
        · rw [if_neg hle]
          exact h

/-- Erasing the timer of `key` from a duplicate-free timer list leaves a
duplicate-free list that no longer mentions `key`. -/
theorem eraseP_key_not_mem : ∀ {l : List WTimer} (key : String),
    (l.map WTimer.key).Nodup →
    key ∉ (l.eraseP (fun t => t.key == key)).map WTimer.key := by
  intro l
  induction l with
  | nil => intro key h hmem; simp [List.eraseP] at hmem
  | cons x xs ih =>
      intro key h hmem
      rw [List.map_cons, List.nodup_cons] at h
      cases hx : x.key == key with
      | true =>
          simp only [List.eraseP_cons, hx, cond_true] at hmem
          exact h.1 ((beq_iff_eq.mp hx) ▸ hmem)
      | false =>
          simp only [List.eraseP_cons, hx, cond_false, List.map_cons,
            List.mem_cons] at hmem
          rcases hmem with hmem | hmem
          · exact (beq_eq_false_iff_ne.mp hx) hmem.symm
          · exact ih key h.2 hmem

theorem eraseP_key_nodup {l : List WTimer} (key : String)
    (h : (l.map WTimer.key).Nodup) :
    ((l.eraseP (fun t => t.key == key)).map WTimer.key).Nodup ∧
      key ∉ (l.eraseP (fun t => t.key == key)).map WTimer.key :=
  ⟨h.sublist (List.Sublist.map WTimer.key (List.eraseP_sublist l)),
    eraseP_key_not_mem key h⟩

theorem handleFileChange_nodup (now : Nat) (key : String) (typ : FileChangeType)
    {st : WState} (h : (st.tmrs.map WTimer.key).Nodup) :
    ((handleFileChange now key typ st).tmrs.map WTimer.key).Nodup := by
  unfold handleFileChange
  split
  · exact h
  · split
    · exact h
    · obtain ⟨h1, h2⟩ := eraseP_key_nodup key h
      simp only [List.map_append, List.map_cons, List.map_nil]
      rw [List.nodup_append]
      refine ⟨h1, List.nodup_singleton key, ?_⟩
      intro x hx hx2
      rw [List.mem_singleton.mp hx2] at hx
      exact h2 hx

theorem wRun_nodup : ∀ (cmds : List (Nat × String × FileChangeType)) (st : WState),
    (st.tmrs.map WTimer.key).Nodup →
    ((wRun cmds st).tmrs.map WTimer.key).Nodup := by
  intro cmds
  induction cmds with
  | nil => intro st h; exact h
  | cons c rest ih =>
      intro st h
      obtain ⟨t, k, ty⟩ := c
      simp only [wRun]
      exact ih _ (handleFileChange_nodup t k ty (wFireDueGo_nodup _ t _ h))

/-- `gaps` lists, for each event after the first, the delay since the
previous event and the new event''s type; all events are on path `p`. -/
def rapidTrace (p : String) : Nat → FileChangeType → List (Nat × FileChangeType) →
    List (Nat × String × FileChangeType)
  | t0, ty0, [] => [(t0, p, ty0)]
  | t0, ty0, (d, ty) :: rest => (t0, p, ty0) :: rapidTrace p (t0 + d) ty rest

/-- Time of the last event of a rapid trace. -/
def tLast : Nat → List (Nat × FileChangeType) → Nat
  | t0, [] => t0
  | t0, (d, _) :: rest => tLast (t0 + d) rest

/-- Type of the last event of a rapid trace. -/
def tyLast : FileChangeType → List (Nat × FileChangeType) → FileChangeType
  | ty0, [] => ty0
  | _, (_, ty) :: rest => tyLast ty rest

theorem rapid_step (p : String) (ign ups : List String)
    (hig : ign.contains p = false) (hup : ups.contains p = false)
    (t0 : Nat) (ty0 : FileChangeType) (seq : Nat) (tms : List WTimer)
    (htm : tms = [] ∨ ∃ ty f s, tms = [⟨p, ty, f, s⟩] ∧ t0 < f) :
    handleFileChange t0 p ty0 (wFireDue t0 ⟨tms, seq, [], [], ign, ups⟩) =
      ⟨[⟨p, ty0, t0 + 500, seq⟩], seq + 1, [], [], ign, ups⟩ := by
  have hig' : p ∉ ign := by simpa using hig
  have hup' : p ∉ ups := by simpa using hup
  rcases htm with h | ⟨ty, f, s, h, hf⟩
  · subst h
    simp [wFireDue, wFireDueGo, extractMinBy, handleFileChange, hig, hup, hig', hup']
  · subst h
    have hnotle : ¬ ((⟨p, ty, f, s⟩ : WTimer).fireAt ≤ t0) := by
      show ¬ f ≤ t0
      omega
    simp [wFireDue, wFireDueGo, extractMinBy, hnotle, handleFileChange, hig, hup,
      hig', hup', List.eraseP]

theorem rapid_run (p : String) (ign ups : List String)
    (hig : ign.contains p = false) (hup : ups.contains p = false) :
    ∀ (gaps : List (Nat × FileChangeType)) (t0 : Nat) (ty0 : FileChangeType)
      (seq : Nat) (tms : List WTimer),
      (∀ x ∈ gaps, x.1 < 500) →
      (tms = [] ∨ ∃ ty f s, tms = [⟨p, ty, f, s⟩] ∧ t0 < f) →
      wRun (rapidTrace p t0 ty0 gaps) ⟨tms, seq, [], [], ign, ups⟩ =
        ⟨[⟨p, tyLast ty0 gaps, tLast t0 gaps + 500, seq + gaps.length⟩],
          seq + gaps.length + 1, [], [], ign, ups⟩ := by
  intro gaps
  induction gaps with
  | nil =>
      intro t0 ty0 seq tms hg htm
      simp only [rapidTrace, wRun]
      rw [rapid_step p ign ups hig hup t0 ty0 seq tms htm]
      simp [tyLast, tLast]
  | cons g rest ih =>
      intro t0 ty0 seq tms hg htm
      obtain ⟨d, ty⟩ := g
      have hd : d < 500 := hg (d, ty) (List.mem_cons_self _ _)
      simp only [rapidTrace, wRun]
      rw [rapid_step p ign ups hig hup t0 ty0 seq tms htm]
      rw [ih (t0 + d) ty (seq + 1) _ (fun x hx => hg x (List.mem_cons_of_mem _ hx))
        (Or.inr ⟨ty0, t0 + 500, seq, rfl, by omega⟩)]
      have hlen : seq + 1 + rest.length = seq + ((d, ty) :: rest).length := by
        simp [List.length_cons]
        omega
      rw [show tyLast ty0 ((d, ty) :: rest) = tyLast ty rest from rfl,
        show tLast t0 ((d, ty) :: rest) = tLast (t0 + d) rest from rfl, hlen]

/-- C9.  (a) Starting from a watcher with no pending debounce timers, at
most one debounce timer is pending per path at any instant, for every
trace of file-system events: a new event for a path cancels and replaces
the prior timer instead of adding a second one.  (b) Any number of rapid
change events for one non-ignored, non-uploading path - each arriving
strictly within 500 ms of the previous one - produce, once the last
debounce window elapses, exactly one queued operation, and it carries
the last event''s type. -/
theorem debounce_single_timer_and_coalescing :
    (∀ (cmds : List (Nat × String × FileChangeType)) (ign ups : List String),
        ((wRun cmds (winit ign ups)).tmrs.map WTimer.key).Nodup) ∧
    (∀ (p : String) (ign ups : List String) (t0 : Nat) (ty0 : FileChangeType)
        (gaps : List (Nat × FileChangeType)),
        ign.contains p = false → ups.contains p = false →
        (∀ x ∈ gaps, x.1 < 500) →
        (wDrain (wRun (rapidTrace p t0 ty0 gaps) (winit ign ups))).queued =
          [(p, tyLast ty0 gaps)]) := by
  constructor
  · intro cmds ign ups
    exact wRun_nodup cmds _ (by simp [winit])
  · intro p ign ups t0 ty0 gaps hig hup hg
    rw [show winit ign ups = ⟨[], 0, [], [], ign, ups⟩ from rfl]
    rw [rapid_run p ign ups hig hup gaps t0 ty0 0 [] hg (Or.inl rfl)]
    have hup' : p ∉ ups := by simpa using hup
    simp [wDrain, wDrainGo, extractMinBy, wFire, hup, hup']

/-- Witness for C9: three saves 10 ms apart on one path queue exactly one
operation with the last event''s type. -/
theorem debounce_coalescing_witness :
    (wDrain (wRun (rapidTrace "a" 0 FileChangeType.changed
        [(10, FileChangeType.changed), (10, FileChangeType.deleted)])
        (winit [] []))).queued = [("a", FileChangeType.deleted)] :=
  debounce_single_timer_and_coalescing.2 "a" [] [] 0 FileChangeType.changed
    [(10, FileChangeType.changed), (10, FileChangeType.deleted)] rfl rfl (by decide)

end FtpSync
